import Mathlib

/-!
Shallow embedding of the Huffman codec in `src/main.cpp` (class `Huffman`).

Modelling choices, fixed once for the whole file:
* A C++ `char` is a signed 8-bit integer on the reference platform; characters
  are embedded as `Int` values, texts as `List Int`.  `'\0'` is `0`.
* `std::string::operator[]` is total in the model: the read at `size()` yields
  the null terminator (as in C++), and reads past it (undefined behaviour in
  C++) also yield `0`.
* `std::map` is an association list strictly sorted by key; `std::size_t` is
  an unbounded `Nat`.
* `std::priority_queue` is a list sorted with the element `top()` returns at
  the head.  The comparator `Greater` of the source is not a strict weak
  order (it is reflexive on nodes with equal frequency and value), so the
  C++ heap's order among such ties is unspecified; the model resolves those
  ties by insertion order.
* Exceptions become `Except DecodeErr`; the `pq.top()` call on an empty
  queue (reachable on an empty frequency table) has no defined C++ result
  and is modelled as `Option.none` / `DecodeErr.ubEmptyTop`.
-/

namespace Huffman

/-- `std::string::operator[]` made total, see the header comment. -/
def charAt (s : List Int) (i : Nat) : Int := s.getD i 0

/-- `std::isspace` in the C locale: space and the characters 9..13. -/
def isspaceB (c : Int) : Bool := c == 32 || (decide (9 ≤ c) && decide (c ≤ 13))

/-- Decimal digit test, used by the `strtoull` model. -/
def isDigitB (c : Int) : Bool := decide (48 ≤ c) && decide (c ≤ 57)

/-- `std::map<char, A>` write `m[k] = v`: insert or overwrite, keeping keys
sorted. -/
def mapSet {α : Type} (m : List (Int × α)) (k : Int) (v : α) : List (Int × α) :=
  match m with
  | [] => [(k, v)]
  | (k2, v2) :: rest =>
    if k < k2 then (k, v) :: (k2, v2) :: rest
    else if k = k2 then (k, v) :: rest
    else (k2, v2) :: mapSet rest k v

/-- `std::map` read (`find`). -/
def mapGet? {α : Type} (m : List (Int × α)) (k : Int) : Option α :=
  match m with
  | [] => none
  | (k2, v) :: rest => if k = k2 then some v else mapGet? rest k

/-- `++freq[c]`: a missing key is default-constructed to `0` and then
incremented, so a new key enters with count `1`. -/
def mapIncr (m : List (Int × Nat)) (k : Int) : List (Int × Nat) :=
  match m with
  | [] => [(k, 1)]
  | (k2, v) :: rest =>
    if k < k2 then (k, 1) :: (k2, v) :: rest
    else if k = k2 then (k2, v + 1) :: rest
    else (k2, v) :: mapIncr rest k

/-- `Huffman::getFreq`: one `++freq[c]` per character of the text. -/
def getFreq (text : List Int) : List (Int × Nat) := text.foldl mapIncr []

/-- `Huffman::Node`: a leaf holds a character and its frequency; the merge
step builds inner nodes with value `'\0'` and two non-null children, so the
two shapes are the two constructors. -/
inductive Node where
  | leaf (value : Int) (freq : Nat)
  | internal (freq : Nat) (left right : Node)
deriving DecidableEq

/-- The `freq` field. -/
def Node.freq : Node → Nat
  | .leaf _ f => f
  | .internal f _ _ => f

/-- The `value` field; inner nodes are created with `'\0'`. -/
def Node.value : Node → Int
  | .leaf v _ => v
  | .internal _ _ _ => 0

/-- `Huffman::Greater`:
`lhs->freq == rhs->freq ? lhs->value >= rhs->value : lhs->freq > rhs->freq`. -/
def Greater (l r : Node) : Bool :=
  if l.freq = r.freq then decide (r.value ≤ l.value) else decide (r.freq < l.freq)

/-- `priority_queue::push` on the sorted-list queue model: the new element
goes in front of the first strictly lower-priority element (one that the
comparator orders strictly after `x`); ties keep insertion order. -/
def pqPush (q : List Node) (x : Node) : List Node :=
  match q with
  | [] => [x]
  | y :: ys => if Greater y x && !Greater x y then x :: y :: ys else y :: pqPush ys x

/-- The merge loop of `Huffman::generateHuffmanTree`: while more than one
node remains, pop the two highest-priority nodes `left` and `right` and push
an inner node with the summed frequency. -/
def huffLoop (q : List Node) : List Node :=
  match q with
  | a :: b :: rest => huffLoop (pqPush rest (Node.internal (a.freq + b.freq) a b))
  | other => other
termination_by q.length
decreasing_by
  have h : ∀ (l : List Node) (x : Node), (pqPush l x).length = l.length + 1 := by
    intro l
    induction l with
    | nil => intro x; rfl
    | cons y ys ih =>
      intro x
      simp only [pqPush]
      split
      · simp
      · simp [ih]
  simp [h]

/-- `Huffman::generateHuffmanTree`: build the queue of leaves from the
frequency map, run the merge loop, and return `top()`; on an empty table,
`top()` on an empty queue has no defined result and is `none`. -/
def generateHuffmanTree (freq : List (Int × Nat)) : Option Node :=
  (huffLoop (freq.foldl (fun q f => pqPush q (Node.leaf f.1 f.2)) [])).head?

/-- `Huffman::generateHuffmanCodesImpl`.  The C++ helper takes a possibly
null pointer and returns at once on null; a leaf's two null-child calls are
inlined here as no-ops, so the leaf case is exactly the `mapSet` write. -/
def generateHuffmanCodesImpl : Node → List Int → List (Int × List Int) → List (Int × List Int)
  | .leaf v _, repr, m => mapSet m v repr
  | .internal _ l r, repr, m =>
      generateHuffmanCodesImpl r (repr ++ [49]) (generateHuffmanCodesImpl l (repr ++ [48]) m)

/-- `Huffman::generateHuffmanCodes`: traverse from the root with the empty
code. -/
def generateHuffmanCodes (root : Node) : List (Int × List Int) :=
  generateHuffmanCodesImpl root [] []

/-- `std::to_string` for an unsigned value: decimal digits, most significant
first, as characters. -/
def natDigits (n : Nat) : List Int :=
  if n < 10 then [48 + (n : Int)] else natDigits (n / 10) ++ [48 + ((n % 10 : Nat) : Int)]
termination_by n
decreasing_by
  have h10 : 0 < n := by omega
  exact Nat.div_lt_self h10 (by omega)

/-- The sentinel line `"het\n"` of the self-contained header. -/
def hetLine : List Int := [104, 101, 116, 10]

/-- The header body built by the encoder loop
`encoded += f.first + std::string(" ") + std::to_string(f.second) + '\n'`. -/
def freqLines (freq : List (Int × Nat)) : List Int :=
  freq.foldl (fun acc f => acc ++ (f.1 :: 32 :: (natDigits f.2 ++ [10]))) []

/-- The encoder's second loop `encoded += huffmanCode[c]`.  `operator[]` on
the local map default-constructs a missing entry to the empty string, which
is the `getD []` here (the insertion it performs is invisible to later
lookups, as the inserted value is also empty). -/
def encodeBody (huffmanCode : List (Int × List Int)) (text : List Int) : List Int :=
  text.foldl (fun acc c => acc ++ ((mapGet? huffmanCode c).getD [])) []

/-- `Huffman::encode`: frequency table, tree, code table, then
`"het\n" + frequency lines + "het\n" + coded body`.  `none` marks the
undefined `pq.top()` on the empty queue reached on empty input. -/
def encode (text : List Int) : Option (List Int) :=
  match generateHuffmanTree (getFreq text) with
  | none => none
  | some root =>
      some (hetLine ++ freqLines (getFreq text) ++ hetLine ++
        encodeBody (generateHuffmanCodes root) text)

/-- Number of consecutive `isspace` characters at `i` (the `strtoull`
leading-whitespace skip). -/
def wsLen (s : List Int) (i : Nat) : Nat :=
  if i < s.length ∧ isspaceB (charAt s i) = true then wsLen s (i + 1) + 1 else 0
termination_by s.length - i
decreasing_by omega

/-- Number of consecutive decimal digits at `i`. -/
def digitsLen (s : List Int) (i : Nat) : Nat :=
  if i < s.length ∧ isDigitB (charAt s i) = true then digitsLen s (i + 1) + 1 else 0
termination_by s.length - i
decreasing_by omega

/-- Value of the decimal digit run at `i`, accumulated left to right. -/
def digitsVal (s : List Int) (i : Nat) (acc : Nat) : Nat :=
  if i < s.length ∧ isDigitB (charAt s i) = true then
    digitsVal s (i + 1) (acc * 10 + (charAt s i - 48).toNat)
  else acc
termination_by s.length - i
decreasing_by omega

/-- Modelled from the C standard library: `strtoull(p + i, &e, 10)`.
Skips leading whitespace, accepts one optional sign, then a decimal digit
run; with no digits the value is `0` and the end position is the original
`i`.  `unsigned long long` is modelled as an unbounded `Nat` (faithful for
values below `2 ^ 64`; the `ERANGE` clamp is not modelled); a `'-'` sign
wraps as in C, modulo `2 ^ 64`. -/
def strtoull10 (s : List Int) (i : Nat) : Nat × Nat :=
  let j := i + wsLen s i
  let k := if charAt s j = 43 ∨ charAt s j = 45 then j + 1 else j
  if digitsLen s k = 0 then (0, i)
  else if charAt s j = 45 then
    ((2 ^ 64 - digitsVal s k 0 % 2 ^ 64) % 2 ^ 64, k + digitsLen s k)
  else (digitsVal s k 0, k + digitsLen s k)

/-- The three `throw std::runtime_error` sites of `Huffman::decode`, plus a
marker for the undefined `pq.top()` on an empty queue (reached when the
parsed frequency table is empty). -/
inductive DecodeErr where
  | notEncoded
  | expectedSpace (c : Int)
  | invalidSymbol
  | ubEmptyTop
deriving DecidableEq

/-- The header-reading `while (true)` loop of `Huffman::decode`: stop on the
closing sentinel, otherwise demand a space after the symbol, check the
bound after `i += 2`, read the count with `strtoull`, store it, and continue
one past the end pointer. -/
def parseHeader (s : List Int) (i : Nat) (freq : List (Int × Nat)) :
    Except DecodeErr (List (Int × Nat) × Nat) :=
  if charAt s i = 104 ∧ i + 2 < s.length ∧ charAt s (i + 1) = 101 ∧ charAt s (i + 2) = 116 then
    .ok (freq, i + 4)
  else if isspaceB (charAt s (i + 1)) = false then .error (.expectedSpace (charAt s i))
  else if s.length ≤ i + 2 then .error .invalidSymbol
  else
    parseHeader s ((strtoull10 s (i + 2)).2 + 1) (mapSet freq (charAt s i) (strtoull10 s (i + 2)).1)
termination_by s.length + 2 - i
decreasing_by
  have hb : ∀ m, m ≤ (strtoull10 s m).2 := by
    intro m
    simp only [strtoull10]
    repeat' split
    all_goals first
      | exact Nat.le_refl m
      | (simp; omega)
  have hb2 := hb (i + 2)
  omega

/-- `std::map<std::string, char>` write; only `find` is ever observed, so
the list is kept in insertion order and a write to an existing key
overwrites in place. -/
def strMapSet (m : List (List Int × Int)) (k : List Int) (v : Int) : List (List Int × Int) :=
  match m with
  | [] => [(k, v)]
  | (k2, v2) :: rest => if k = k2 then (k, v) :: rest else (k2, v2) :: strMapSet rest k v

/-- `std::map<std::string, char>::find`. -/
def strMapFind (m : List (List Int × Int)) (k : List Int) : Option Int :=
  match m with
  | [] => none
  | (k2, v) :: rest => if k = k2 then some v else strMapFind rest k

/-- The decoder loop `reversedHuffmanCode[c.second] = c.first` over the code
map. -/
def reverseCodes (cm : List (Int × List Int)) : List (List Int × Int) :=
  cm.foldl (fun r p => strMapSet r p.2 p.1) []

/-- The inner decoder loop: grow `j` while `j <= size` until
`substr(i, j - i)` is a key of the reversed map; the result is the final `j`
together with the symbol found, if any. -/
def findCode (rev : List (List Int × Int)) (s : List Int) (i j : Nat) : Nat × Option Int :=
  if j ≤ s.length then
    match strMapFind rev ((s.drop i).take (j - i)) with
    | some sym => (j, some sym)
    | none => findCode rev s i (j + 1)
  else (j, none)
termination_by s.length + 1 - j
decreasing_by omega

/-- The outer decoder loop: while `i < size`, run the inner loop from
`i + 1`, append the symbol found (if any), and continue at the final `j`. -/
def decodeLoop (rev : List (List Int × Int)) (s : List Int) (i : Nat) (acc : List Int) :
    List Int :=
  if i < s.length then
    match h : findCode rev s i (i + 1) with
    | (j, some sym) => decodeLoop rev s j (acc ++ [sym])
    | (j, none) => decodeLoop rev s j acc
  else acc
termination_by s.length - i
decreasing_by
  all_goals
    have key : ∀ (L j0 : Nat), s.length + 1 - j0 ≤ L → j0 ≤ (findCode rev s i j0).1 := by
      intro L
      induction L with
      | zero =>
        intro j0 h0
        rw [findCode]
        split
        · omega
        · exact Nat.le_refl j0
      | succ L ih =>
        intro j0 h0
        rw [findCode]
        split
        · split
          · exact Nat.le_refl j0
          · exact Nat.le_trans (by omega) (ih (j0 + 1) (by omega))
        · exact Nat.le_refl j0
  all_goals
    have hk := key (s.length + 1) (i + 1) (by omega)
    rw [h] at hk
    simp at hk
    omega

/-- `Huffman::decode`: check the opening sentinel and the whitespace after
it, parse the header, rebuild the tree and the code map, reverse the code
map, and run the decode loop from the position after the closing sentinel.
The C++ throws on the negated first check; the model returns the error on
the `else` branch of the same condition. -/
def decode (text : List Int) : Except DecodeErr (List Int) :=
  if text.take 3 = [104, 101, 116] ∧ isspaceB (charAt text 3) = true then
    match parseHeader text 4 [] with
    | .error e => .error e
    | .ok (freq, i) =>
      match generateHuffmanTree freq with
      | none => .error .ubEmptyTop
      | some root =>
          .ok (decodeLoop (reverseCodes (generateHuffmanCodes root)) text i [])
  else .error .notEncoded

/-! Specification-side observers used to state the claims. -/

/-- Number of leaves of a tree. -/
def countLeaves : Node → Nat
  | .leaf _ _ => 1
  | .internal _ l r => countLeaves l + countLeaves r

/-- Number of inner (merge-created) nodes of a tree. -/
def countInternal : Node → Nat
  | .leaf _ _ => 0
  | .internal _ l r => countInternal l + countInternal r + 1

/-- Every inner node's frequency is the sum of its children's. -/
def freqOK : Node → Bool
  | .leaf _ _ => true
  | .internal f l r => decide (f = Node.freq l + Node.freq r) && freqOK l && freqOK r

/-- The leaves of a tree, in order, as (value, frequency) pairs. -/
def leaves : Node → List (Int × Nat)
  | .leaf v f => [(v, f)]
  | .internal _ l r => leaves l ++ leaves r

/-- The in-order list of (leaf symbol, code) pairs produced under a given
code so far; the list the recursive code generator writes into its map. -/
def codePaths : Node → List Int → List (Int × List Int)
  | .leaf v _, repr => [(v, repr)]
  | .internal _ l r, repr => codePaths l (repr ++ [48]) ++ codePaths r (repr ++ [49])

/-- Follow a bit string (characters '0' and '1') down a tree: `some v` when
it ends exactly at a leaf with value `v`. -/
def followPath : Node → List Int → Option Int
  | .leaf v _, [] => some v
  | .leaf _ _, _ :: _ => none
  | .internal _ _ _, [] => none
  | .internal _ l r, b :: bs =>
    if b = 48 then followPath l bs else if b = 49 then followPath r bs else none

/-- `a` is a prefix of `b` (not necessarily proper). -/
def frontOf (a b : List Int) : Prop := ∃ t, b = a ++ t

/-- Sum of the counts of a frequency table. -/
def sumCounts (m : List (Int × Nat)) : Nat := (m.map Prod.snd).sum

/-- Total bit cost of a table under a code map: code length times count,
summed over the entries. -/
def bitCost (cm : List (Int × List Int)) (m : List (Int × Nat)) : Nat :=
  (m.map (fun p => ((mapGet? cm p.1).getD []).length * p.2)).sum

/-- The `std::map` representation invariant: keys strictly increasing. -/
def keysSorted {α : Type} (m : List (Int × α)) : Prop :=
  m.Pairwise (fun p q => p.1 < q.1)

/-- The priority-queue representation invariant: no later element is
strictly higher priority (w.r.t. the comparator `Greater`) than an earlier
one. -/
def pqOrdered (q : List Node) : Prop :=
  q.Pairwise (fun a b => ¬(Greater a b = true ∧ Greater b a = false))

/-! ## Lemmas: characters and list views -/

theorem charAt_nil (k : Nat) : charAt [] k = 0 := by
  cases k <;> rfl

theorem charAt_add (s : List Int) (i k : Nat) : charAt s (i + k) = charAt (s.drop i) k := by
  simp [charAt, List.getD_eq_getElem?_getD, List.getElem?_drop]

theorem charAt_of_drop {s u : List Int} {i : Nat} (h : s.drop i = u) (k : Nat) :
    charAt s (i + k) = charAt u k := by
  rw [charAt_add, h]

theorem drop_of_drop {s u : List Int} {i : Nat} (h : s.drop i = u) (k : Nat) :
    s.drop (i + k) = u.drop k := by
  rw [← h, List.drop_drop, Nat.add_comm]

theorem length_of_drop {s u : List Int} {i : Nat} (h : s.drop i = u) :
    s.length - i = u.length := by
  rw [← h, List.length_drop]

/-! ## Lemmas: the sorted map model -/

theorem mapGet?_set_self {α : Type} (m : List (Int × α)) (k : Int) (v : α) :
    mapGet? (mapSet m k v) k = some v := by
  induction m with
  | nil => simp [mapSet, mapGet?]
  | cons p rest ih =>
    obtain ⟨k2, v2⟩ := p
    by_cases h1 : k < k2
    · simp [mapSet, h1, mapGet?]
    · by_cases h2 : k = k2
      · simp [mapSet, h1, h2, mapGet?]
      · simp [mapSet, h1, h2, mapGet?, ih]

theorem mapGet?_set_ne {α : Type} (m : List (Int × α)) (k : Int) (v : α) (k' : Int)
    (h : k' ≠ k) : mapGet? (mapSet m k v) k' = mapGet? m k' := by
  induction m with
  | nil => simp [mapSet, mapGet?, h]
  | cons p rest ih =>
    obtain ⟨k2, v2⟩ := p
    by_cases h1 : k < k2
    · simp [mapSet, h1, mapGet?, h]
    · by_cases h2 : k = k2
      · subst h2
        simp [mapSet, h1, mapGet?, h]
      · by_cases h3 : k' = k2
        · simp [mapSet, h1, h2, mapGet?, h3]
        · simp [mapSet, h1, h2, mapGet?, h3, ih]

theorem mapGet?_mem {α : Type} (m : List (Int × α)) (k : Int) (v : α)
    (h : mapGet? m k = some v) : (k, v) ∈ m := by
  induction m with
  | nil => simp [mapGet?] at h
  | cons p rest ih =>
    obtain ⟨k2, v2⟩ := p
    simp only [mapGet?] at h
    by_cases hk : k = k2
    · simp [hk] at h
      simp [hk, h]
    · simp [hk] at h
      exact List.mem_cons_of_mem _ (ih h)

theorem mem_mapGet? {α : Type} (m : List (Int × α)) (k : Int) (v : α)
    (hs : keysSorted m) (h : (k, v) ∈ m) : mapGet? m k = some v := by
  induction m with
  | nil => simp at h
  | cons p rest ih =>
    obtain ⟨k2, v2⟩ := p
    rcases List.mem_cons.mp h with h1 | h1
    · obtain ⟨rfl, rfl⟩ := Prod.mk.injEq .. ▸ h1
      simp [mapGet?]
    · have hlt : k2 < k := by
        have := (List.pairwise_cons.mp hs).1 (k, v) h1
        simpa using this
      have hne : k ≠ k2 := by omega
      simp only [mapGet?, if_neg hne]
      exact ih (List.pairwise_cons.mp hs).2 h1

theorem mapSet_mem_sub {α : Type} (m : List (Int × α)) (k : Int) (v : α) :
    ∀ p ∈ mapSet m k v, p = (k, v) ∨ p ∈ m := by
  induction m with
  | nil => simp [mapSet]
  | cons q rest ih =>
    obtain ⟨k2, v2⟩ := q
    intro p hp
    simp only [mapSet] at hp
    split at hp
    · rcases List.mem_cons.mp hp with h | h
      · exact Or.inl h
      · exact Or.inr h
    · split at hp
      · rcases List.mem_cons.mp hp with h | h
        · exact Or.inl h
        · exact Or.inr (List.mem_cons_of_mem _ h)
      · rcases List.mem_cons.mp hp with h | h
        · exact Or.inr (by simp [h])
        · rcases ih p h with h1 | h1
          · exact Or.inl h1
          · exact Or.inr (List.mem_cons_of_mem _ h1)

theorem mapSet_sorted {α : Type} (m : List (Int × α)) (k : Int) (v : α)
    (hs : keysSorted m) : keysSorted (mapSet m k v) := by
  induction m with
  | nil => simp [mapSet, keysSorted]
  | cons q rest ih =>
    obtain ⟨k2, v2⟩ := q
    obtain ⟨hhead, htail⟩ := List.pairwise_cons.mp hs
    by_cases h1 : k < k2
    · simp only [mapSet, if_pos h1]
      refine List.pairwise_cons.mpr ⟨?_, hs⟩
      intro p hp
      rcases List.mem_cons.mp hp with h | h
      · simp [h]; omega
      · have := hhead p h
        simp only at this ⊢
        omega
    · by_cases h2 : k = k2
      · subst h2
        simp only [mapSet, if_neg h1, if_pos rfl]
        exact List.pairwise_cons.mpr ⟨hhead, htail⟩
      · simp only [mapSet, if_neg h1, if_neg h2]
        refine List.pairwise_cons.mpr ⟨?_, ih htail⟩
        intro p hp
        rcases mapSet_mem_sub rest k v p hp with h | h
        · simp [h]; omega
        · exact hhead p h

theorem mapIncr_mem_sub (m : List (Int × Nat)) (k : Int) :
    ∀ p ∈ mapIncr m k, p.1 = k ∨ p ∈ m := by
  induction m with
  | nil => simp [mapIncr]
  | cons q rest ih =>
    obtain ⟨k2, v2⟩ := q
    intro p hp
    by_cases h1 : k < k2
    · simp only [mapIncr, if_pos h1] at hp
      rcases List.mem_cons.mp hp with h | h
      · simp [h]
      · exact Or.inr h
    · by_cases h2 : k = k2
      · simp only [mapIncr, if_neg h1, if_pos h2] at hp
        rcases List.mem_cons.mp hp with h | h
        · simp [h, h2]
        · exact Or.inr (List.mem_cons_of_mem _ h)
      · simp only [mapIncr, if_neg h1, if_neg h2] at hp
        rcases List.mem_cons.mp hp with h | h
        · exact Or.inr (by simp [h])
        · rcases ih p h with h3 | h3
          · exact Or.inl h3
          · exact Or.inr (List.mem_cons_of_mem _ h3)

theorem mapIncr_sorted (m : List (Int × Nat)) (k : Int) (hs : keysSorted m) :
    keysSorted (mapIncr m k) := by
  induction m with
  | nil => simp [mapIncr, keysSorted]
  | cons q rest ih =>
    obtain ⟨k2, v2⟩ := q
    obtain ⟨hhead, htail⟩ := List.pairwise_cons.mp hs
    by_cases h1 : k < k2
    · simp only [mapIncr, if_pos h1]
      refine List.pairwise_cons.mpr ⟨?_, hs⟩
      intro p hp
      rcases List.mem_cons.mp hp with h | h
      · simp [h]; omega
      · have := hhead p h
        simp only at this ⊢
        omega
    · by_cases h2 : k = k2
      · simp only [mapIncr, if_neg h1, if_pos h2]
        exact List.pairwise_cons.mpr ⟨hhead, htail⟩
      · simp only [mapIncr, if_neg h1, if_neg h2]
        refine List.pairwise_cons.mpr ⟨?_, ih htail⟩
        intro p hp
        rcases mapIncr_mem_sub rest k p hp with h | h
        · simp only at hhead ⊢
          omega
        · exact hhead p h

theorem getFreq_sorted (text : List Int) : keysSorted (getFreq text) := by
  have gen : ∀ (t : List Int) (m : List (Int × Nat)), keysSorted m →
      keysSorted (t.foldl mapIncr m) := by
    intro t
    induction t with
    | nil => intro m hm; simpa using hm
    | cons c t ih =>
      intro m hm
      simpa using ih (mapIncr m c) (mapIncr_sorted m c hm)
  exact gen text [] (by simp [keysSorted])

theorem mapIncr_fst_self (m : List (Int × Nat)) (k : Int) :
    k ∈ (mapIncr m k).map Prod.fst := by
  induction m with
  | nil => simp [mapIncr]
  | cons q rest ih =>
    obtain ⟨k2, v2⟩ := q
    by_cases h1 : k < k2
    · simp [mapIncr, h1]
    · by_cases h2 : k = k2
      · simp [mapIncr, h1, h2]
      · simp only [mapIncr, if_neg h1, if_neg h2, List.map_cons, List.mem_cons]
        exact Or.inr ih

theorem mapIncr_fst_mono (m : List (Int × Nat)) (k k' : Int)
    (h : k' ∈ m.map Prod.fst) : k' ∈ (mapIncr m k).map Prod.fst := by
  induction m with
  | nil => simp at h
  | cons q rest ih =>
    obtain ⟨k2, v2⟩ := q
    simp only [List.map_cons, List.mem_cons] at h
    by_cases h1 : k < k2
    · simp only [mapIncr, if_pos h1, List.map_cons, List.mem_cons]
      rcases h with h | h
      · exact Or.inr (Or.inl h)
      · exact Or.inr (Or.inr h)
    · by_cases h2 : k = k2
      · simp only [mapIncr, if_neg h1, if_pos h2, List.map_cons, List.mem_cons]
        exact h
      · simp only [mapIncr, if_neg h1, if_neg h2, List.map_cons, List.mem_cons]
        rcases h with h | h
        · exact Or.inl h
        · exact Or.inr (ih h)

theorem getFreq_mem_fst (text : List Int) (c : Int) (hc : c ∈ text) :
    c ∈ (getFreq text).map Prod.fst := by
  have gen : ∀ (t : List Int) (m : List (Int × Nat)),
      c ∈ t ∨ c ∈ m.map Prod.fst → c ∈ (t.foldl mapIncr m).map Prod.fst := by
    intro t
    induction t with
    | nil =>
      intro m hm
      simpa using hm.resolve_left (by simp)
    | cons d t ih =>
      intro m hm
      simp only [List.foldl_cons]
      apply ih
      rcases hm with hm | hm
      · rcases List.mem_cons.mp hm with h | h
        · exact Or.inr (h ▸ mapIncr_fst_self m d)
        · exact Or.inl h
      · exact Or.inr (mapIncr_fst_mono m d c hm)
  exact gen text [] (Or.inl hc)

/-! ## Lemmas: the string-keyed map model -/

theorem strMapFind_set_self (m : List (List Int × Int)) (k : List Int) (v : Int) :
    strMapFind (strMapSet m k v) k = some v := by
  induction m with
  | nil => simp [strMapSet, strMapFind]
  | cons p rest ih =>
    obtain ⟨k2, v2⟩ := p
    by_cases h : k = k2
    · simp [strMapSet, h, strMapFind]
    · simp [strMapSet, h, strMapFind, ih]

theorem strMapFind_set_sound (m : List (List Int × Int)) (k x : List Int) (v y : Int)
    (h : strMapFind (strMapSet m k v) x = some y) :
    (x = k ∧ y = v) ∨ strMapFind m x = some y := by
  induction m with
  | nil =>
    simp only [strMapSet, strMapFind] at h
    by_cases hx : x = k
    · simp [hx] at h
      exact Or.inl ⟨hx, h.symm⟩
    · simp [hx] at h
  | cons p rest ih =>
    obtain ⟨k2, v2⟩ := p
    by_cases hk : k = k2
    · simp only [strMapSet, if_pos hk] at h
      simp only [strMapFind] at h ⊢
      by_cases hx : x = k
      · simp [hx, hk ▸ hx] at h ⊢
        exact Or.inl h.symm
      · rw [if_neg hx] at h
        rw [if_neg (hk ▸ hx)]
        exact Or.inr h
    · simp only [strMapSet, if_neg hk] at h
      simp only [strMapFind] at h ⊢
      by_cases hx : x = k2
      · rw [if_pos hx] at h ⊢
        exact Or.inr h
      · rw [if_neg hx] at h ⊢
        exact ih h

theorem strMapFind_set_ne (m : List (List Int × Int)) (k : List Int) (v : Int)
    (x : List Int) (h : x ≠ k) : strMapFind (strMapSet m k v) x = strMapFind m x := by
  induction m with
  | nil => simp [strMapSet, strMapFind, h]
  | cons q rest ih =>
    obtain ⟨k2, v2⟩ := q
    by_cases h2 : k = k2
    · subst h2
      simp [strMapSet, strMapFind, h]
    · simp only [strMapSet, if_neg h2, strMapFind]
      split
      · rfl
      · exact ih

theorem strMapFind_fold_frame :
    ∀ (l : List (Int × List Int)) (r : List (List Int × Int)) (x : List Int),
      (∀ p ∈ l, p.2 ≠ x) →
      strMapFind (l.foldl (fun r p => strMapSet r p.2 p.1) r) x = strMapFind r x := by
  intro l
  induction l with
  | nil => intro r x _; simp
  | cons p l ih =>
    intro r x hx
    simp only [List.foldl_cons]
    rw [ih _ x (fun q hq => hx q (List.mem_cons_of_mem _ hq))]
    exact strMapFind_set_ne r p.2 p.1 x (Ne.symm (hx p (by simp)))

theorem strMapFind_fold_mem :
    ∀ (l : List (Int × List Int)) (r : List (List Int × Int)) (k : Int) (c : List Int),
      (k, c) ∈ l → l.Pairwise (fun p q => p.2 ≠ q.2) →
      strMapFind (l.foldl (fun r p => strMapSet r p.2 p.1) r) c = some k := by
  intro l
  induction l with
  | nil => intro r k c hmem _; simp at hmem
  | cons p l ih =>
    intro r k c hmem hdist
    obtain ⟨hhead, htail⟩ := List.pairwise_cons.mp hdist
    simp only [List.foldl_cons]
    rcases List.mem_cons.mp hmem with h | h
    · subst h
      rw [strMapFind_fold_frame l _ c (fun q hq => (hhead q hq).symm)]
      exact strMapFind_set_self r c k
    · exact ih _ k c h htail

theorem strMapFind_fold_sound :
    ∀ (l : List (Int × List Int)) (r : List (List Int × Int)) (x : List Int) (y : Int),
      strMapFind (l.foldl (fun r p => strMapSet r p.2 p.1) r) x = some y →
      (y, x) ∈ l ∨ strMapFind r x = some y := by
  intro l
  induction l with
  | nil => intro r x y h; exact Or.inr h
  | cons p l ih =>
    intro r x y h
    simp only [List.foldl_cons] at h
    rcases ih _ x y h with h1 | h1
    · exact Or.inl (List.mem_cons_of_mem _ h1)
    · rcases strMapFind_set_sound r p.2 x p.1 y h1 with ⟨rfl, rfl⟩ | h2
      · exact Or.inl (by simp)
      · exact Or.inr h2

/-! ## Lemmas: the priority queue -/

theorem greater_true_iff (a b : Node) :
    Greater a b = true ↔ (b.freq < a.freq ∨ (a.freq = b.freq ∧ b.value ≤ a.value)) := by
  unfold Greater
  by_cases h : a.freq = b.freq
  · simp [h]
  · simp [h]

theorem pq_rel_iff (a b : Node) :
    (¬(Greater a b = true ∧ Greater b a = false)) ↔
      (a.freq < b.freq ∨ (a.freq = b.freq ∧ a.value ≤ b.value)) := by
  rw [Bool.eq_false_iff]
  simp only [ne_eq, greater_true_iff]
  omega

theorem pqPush_perm (q : List Node) (x : Node) : (pqPush q x).Perm (x :: q) := by
  induction q with
  | nil => simp [pqPush]
  | cons y ys ih =>
    simp only [pqPush]
    split
    · exact List.Perm.refl _
    · exact (List.Perm.cons y ih).trans (List.Perm.swap x y ys)

theorem pqOrdered_push (q : List Node) (x : Node) (h : pqOrdered q) :
    pqOrdered (pqPush q x) := by
  unfold pqOrdered at *
  induction q with
  | nil => simp [pqPush]
  | cons y ys ih =>
    obtain ⟨hhead, htail⟩ := List.pairwise_cons.mp h
    simp only [pqPush]
    split
    · rename_i hc
      simp only [Bool.and_eq_true, Bool.not_eq_true'] at hc
      refine List.pairwise_cons.mpr ⟨?_, h⟩
      intro z hz
      have hxy : x.freq < y.freq ∨ (x.freq = y.freq ∧ x.value ≤ y.value) := by
        have h1 := (greater_true_iff y x).mp hc.1
        have h2 : Greater x y ≠ true := by simp [hc.2]
        simp only [ne_eq, greater_true_iff] at h2
        omega
      rcases List.mem_cons.mp hz with rfl | hz2
      · rw [pq_rel_iff]
        omega
      · have hyz := (pq_rel_iff y z).mp (hhead z hz2)
        rw [pq_rel_iff]
        omega
    · rename_i hc
      refine List.pairwise_cons.mpr ⟨?_, ih htail⟩
      intro z hz
      rcases List.mem_cons.mp ((pqPush_perm ys x).mem_iff.mp hz) with rfl | hz2
      · intro hcontra
        exact hc (by simp [hcontra.1, hcontra.2])
      · exact hhead z hz2

theorem pqOrdered_foldl (ns : List Node) (q0 : List Node) (h : pqOrdered q0) :
    pqOrdered (ns.foldl pqPush q0) := by
  induction ns generalizing q0 with
  | nil => exact h
  | cons x ns ih => exact ih (pqPush q0 x) (pqOrdered_push q0 x h)

theorem pqOrdered_leaf_index (q : List Node) (hq : pqOrdered q) (i j : Nat)
    (v1 v2 : Int) (f : Nat) (hi : q[i]? = some (Node.leaf v1 f))
    (hj : q[j]? = some (Node.leaf v2 f)) (hv : v1 < v2) : i < j := by
  by_contra hij
  rcases Nat.lt_or_ge j i with hji | hji
  · obtain ⟨hjlen, hjget⟩ := List.getElem?_eq_some.mp hj
    obtain ⟨hilen, higet⟩ := List.getElem?_eq_some.mp hi
    have hrel := (List.pairwise_iff_getElem.mp hq) j i hjlen hilen hji
    rw [hjget, higet, pq_rel_iff] at hrel
    simp [Node.freq, Node.value] at hrel
    omega
  · have : i = j := by omega
    subst this
    rw [hi] at hj
    simp at hj
    omega

/-! ## Lemmas: the merge loop and the built tree -/

theorem sum_map_one {α : Type} (l : List α) : (l.map (fun _ => 1)).sum = l.length := by
  induction l with
  | nil => simp
  | cons x l ih => simp [ih]; omega

theorem flatten_singletons (fl : List (Int × Nat)) :
    (fl.map (fun f => [(f.1, f.2)])).flatten = fl := by
  induction fl with
  | nil => simp
  | cons f fl ih => simp [ih]

theorem huffLoop_spec : ∀ (n : Nat) (q : List Node), q.length ≤ n → q ≠ [] →
    ∃ r, huffLoop q = [r] ∧
      (leaves r).Perm (q.map leaves).flatten ∧
      countLeaves r = (q.map countLeaves).sum ∧
      countInternal r = (q.map countInternal).sum + (q.length - 1) ∧
      ((∀ x ∈ q, freqOK x = true) → freqOK r = true) := by
  intro n
  induction n with
  | zero =>
    intro q hlen hne
    cases q with
    | nil => exact absurd rfl hne
    | cons a q => simp at hlen
  | succ n ih =>
    intro q hlen hne
    rcases q with _ | ⟨a, _ | ⟨b, rest⟩⟩
    · exact absurd rfl hne
    · refine ⟨a, ?_, by simp, by simp, by simp, fun h => h a (by simp)⟩
      rw [huffLoop]
      intro a1 b rest hcontra
      simp at hcontra
    · have hperm := pqPush_perm rest (Node.internal (a.freq + b.freq) a b)
      have hplen : (pqPush rest (Node.internal (a.freq + b.freq) a b)).length =
          rest.length + 1 := by
        rw [hperm.length_eq]
        simp
      have hpne : pqPush rest (Node.internal (a.freq + b.freq) a b) ≠ [] := by
        intro hcontra
        rw [hcontra] at hplen
        simp at hplen
      obtain ⟨r, h1, h2, h3, h4, h5⟩ :=
        ih (pqPush rest (Node.internal (a.freq + b.freq) a b))
          (by simp at hlen; omega) hpne
      refine ⟨r, by rw [huffLoop]; exact h1, ?_, ?_, ?_, ?_⟩
      · refine h2.trans ?_
        refine ((hperm.map leaves).flatten).trans ?_
        apply List.Perm.of_eq
        simp [leaves, List.append_assoc]
      · rw [h3, ((hperm.map countLeaves).sum_eq :)]
        simp [countLeaves]
        omega
      · rw [h4, ((hperm.map countInternal).sum_eq :), hplen]
        simp [countInternal]
        omega
      · intro hall
        apply h5
        intro x hx
        rcases List.mem_cons.mp (hperm.mem_iff.mp hx) with rfl | hx2
        · simp [freqOK, Node.freq, hall a (by simp), hall b (by simp)]
        · exact hall x (by simp [hx2])

theorem leafFold_perm : ∀ (fl : List (Int × Nat)) (q0 : List Node),
    (fl.foldl (fun q f => pqPush q (Node.leaf f.1 f.2)) q0).Perm
      (q0 ++ fl.map (fun f => Node.leaf f.1 f.2)) := by
  intro fl
  induction fl with
  | nil => intro q0; simp
  | cons f fl ih =>
    intro q0
    simp only [List.foldl_cons, List.map_cons]
    refine (ih (pqPush q0 (Node.leaf f.1 f.2))).trans ?_
    refine (((pqPush_perm q0 (Node.leaf f.1 f.2)).append_right _).trans ?_)
    simpa using List.perm_middle.symm

theorem generateHuffmanTree_spec (fl : List (Int × Nat)) (hne : fl ≠ []) :
    ∃ root, generateHuffmanTree fl = some root ∧
      (leaves root).Perm fl ∧
      countLeaves root = fl.length ∧
      countInternal root = fl.length - 1 ∧
      freqOK root = true := by
  have hq0 : (fl.foldl (fun q f => pqPush q (Node.leaf f.1 f.2)) []).Perm
      (fl.map (fun f => Node.leaf f.1 f.2)) := by
    simpa using leafFold_perm fl []
  have hlen : (fl.foldl (fun q f => pqPush q (Node.leaf f.1 f.2)) []).length = fl.length := by
    rw [hq0.length_eq]
    simp
  have hqne : fl.foldl (fun q f => pqPush q (Node.leaf f.1 f.2)) [] ≠ [] := by
    intro hcontra
    rw [hcontra] at hlen
    simp at hlen
    exact hne (List.length_eq_zero.mp hlen.symm)
  obtain ⟨r, h1, h2, h3, h4, h5⟩ :=
    huffLoop_spec (fl.foldl (fun q f => pqPush q (Node.leaf f.1 f.2)) []).length _
      (Nat.le_refl _) hqne
  refine ⟨r, ?_, ?_, ?_, ?_, ?_⟩
  · unfold generateHuffmanTree
    rw [h1]
    rfl
  · refine h2.trans ?_
    refine ((hq0.map leaves).flatten).trans ?_
    apply List.Perm.of_eq
    rw [List.map_map]
    have hc : (leaves ∘ fun f : Int × Nat => Node.leaf f.1 f.2) = fun f => [(f.1, f.2)] := by
      funext f
      rfl
    rw [hc, flatten_singletons]
  · rw [h3, ((hq0.map countLeaves).sum_eq :), List.map_map]
    have hc : (countLeaves ∘ fun f : Int × Nat => Node.leaf f.1 f.2) = fun _ => 1 := by
      funext f
      rfl
    rw [hc, sum_map_one]
  · rw [h4, ((hq0.map countInternal).sum_eq :), List.map_map, hlen]
    have hc : (countInternal ∘ fun f : Int × Nat => Node.leaf f.1 f.2) = fun _ => 0 := by
      funext f
      rfl
    rw [hc]
    simp
  · apply h5
    intro x hx
    rcases List.mem_map.mp (hq0.mem_iff.mp hx) with ⟨f, _, rfl⟩
    rfl

theorem generateHuffmanTree_nil : generateHuffmanTree [] = none := by
  unfold generateHuffmanTree
  rw [huffLoop]
  · rfl
  · intro a b rest hcontra
    simp at hcontra

theorem root_internal_of_two (fl : List (Int × Nat)) (root : Node)
    (hroot : generateHuffmanTree fl = some root) (h2 : 2 ≤ fl.length) :
    ∃ f l r, root = Node.internal f l r := by
  have hne : fl ≠ [] := by
    intro hcontra
    rw [hcontra] at h2
    simp at h2
  obtain ⟨r, hr1, _, hr3, _, _⟩ := generateHuffmanTree_spec fl hne
  rw [hroot] at hr1
  obtain rfl : root = r := by simpa using hr1
  cases root with
  | leaf v f =>
    rw [countLeaves] at hr3
    omega
  | internal f l r => exact ⟨f, l, r, rfl⟩

/-! ## Lemmas: the code table -/

theorem frontOf_refl (c : List Int) : frontOf c c := ⟨[], by simp⟩

theorem not_frontOf_diverge (a : List Int) (b1 b2 : Int) (x y : List Int) (hne : b1 ≠ b2) :
    ¬ frontOf ((a ++ [b1]) ++ x) ((a ++ [b2]) ++ y) := by
  rintro ⟨t, ht⟩
  have h2 : a ++ ([b2] ++ y) = a ++ ([b1] ++ (x ++ t)) := by
    simpa [List.append_assoc] using ht
  have h3 := List.append_cancel_left h2
  simp at h3
  exact hne h3.1.symm

theorem codesImpl_eq_fold : ∀ (t : Node) (repr : List Int) (m : List (Int × List Int)),
    generateHuffmanCodesImpl t repr m =
      (codePaths t repr).foldl (fun m p => mapSet m p.1 p.2) m := by
  intro t
  induction t with
  | leaf v f => intro repr m; simp [generateHuffmanCodesImpl, codePaths]
  | internal f l r ihl ihr =>
    intro repr m
    simp [generateHuffmanCodesImpl, codePaths, ihl, ihr, List.foldl_append]

theorem codePaths_front : ∀ (t : Node) (repr : List Int) (v : Int) (c : List Int),
    (v, c) ∈ codePaths t repr → ∃ c2, c = repr ++ c2 ∧ followPath t c2 = some v := by
  intro t
  induction t with
  | leaf w f =>
    intro repr v c hmem
    simp [codePaths] at hmem
    exact ⟨[], by simp [hmem], by simp [hmem, followPath]⟩
  | internal f l r ihl ihr =>
    intro repr v c hmem
    rcases List.mem_append.mp hmem with h | h
    · obtain ⟨c2, rfl, hf⟩ := ihl (repr ++ [48]) v c h
      exact ⟨48 :: c2, by simp, by simp [followPath, hf]⟩
    · obtain ⟨c2, rfl, hf⟩ := ihr (repr ++ [49]) v c h
      exact ⟨49 :: c2, by simp, by simp [followPath, hf]⟩

theorem codePaths_pairwise : ∀ (t : Node) (repr : List Int),
    (codePaths t repr).Pairwise (fun p q => ¬ frontOf p.2 q.2 ∧ ¬ frontOf q.2 p.2) := by
  intro t
  induction t with
  | leaf v f => intro repr; simp [codePaths]
  | internal f l r ihl ihr =>
    intro repr
    rw [codePaths, List.pairwise_append]
    refine ⟨ihl _, ihr _, ?_⟩
    intro p hp q hq
    obtain ⟨x, hx, _⟩ := codePaths_front l (repr ++ [48]) p.1 p.2 (by simpa using hp)
    obtain ⟨y, hy, _⟩ := codePaths_front r (repr ++ [49]) q.1 q.2 (by simpa using hq)
    rw [hx, hy]
    exact ⟨not_frontOf_diverge repr 48 49 x y (by omega),
      not_frontOf_diverge repr 49 48 y x (by omega)⟩

theorem codePaths_fst : ∀ (t : Node) (repr : List Int),
    (codePaths t repr).map Prod.fst = (leaves t).map Prod.fst := by
  intro t
  induction t with
  | leaf v f => intro repr; simp [codePaths, leaves]
  | internal f l r ihl ihr => intro repr; simp [codePaths, leaves, ihl, ihr]

theorem fold_mapSet_sorted : ∀ (entries : List (Int × List Int)) (m : List (Int × List Int)),
    keysSorted m → keysSorted (entries.foldl (fun m p => mapSet m p.1 p.2) m) := by
  intro entries
  induction entries with
  | nil => intro m hm; exact hm
  | cons e es ih =>
    intro m hm
    exact ih (mapSet m e.1 e.2) (mapSet_sorted m e.1 e.2 hm)

theorem fold_mapSet_mem : ∀ (entries : List (Int × List Int)) (m : List (Int × List Int))
    (p : Int × List Int), p ∈ entries.foldl (fun m p => mapSet m p.1 p.2) m →
    p ∈ entries ∨ p ∈ m := by
  intro entries
  induction entries with
  | nil => intro m p hp; exact Or.inr hp
  | cons e es ih =>
    intro m p hp
    rcases ih (mapSet m e.1 e.2) p hp with h | h
    · exact Or.inl (List.mem_cons_of_mem _ h)
    · rcases mapSet_mem_sub m e.1 e.2 p h with h2 | h2
      · exact Or.inl (by simp [h2])
      · exact Or.inr h2

theorem fold_mapSet_lookup : ∀ (entries : List (Int × List Int)) (m : List (Int × List Int))
    (k : Int), (k ∈ entries.map Prod.fst ∨ ∃ v, mapGet? m k = some v) →
    ∃ c, mapGet? (entries.foldl (fun m p => mapSet m p.1 p.2) m) k = some c := by
  intro entries
  induction entries with
  | nil =>
    intro m k hk
    exact hk.resolve_left (by simp)
  | cons e es ih =>
    intro m k hk
    simp only [List.foldl_cons]
    by_cases hke : k = e.1
    · exact ih _ k (Or.inr ⟨e.2, hke ▸ mapGet?_set_self m e.1 e.2⟩)
    · rcases hk with hk | ⟨v, hv⟩
      · simp only [List.map_cons, List.mem_cons] at hk
        rcases hk with h | h
        · exact absurd h hke
        · exact ih _ k (Or.inl h)
      · exact ih _ k (Or.inr ⟨v, by rw [mapGet?_set_ne m e.1 e.2 k hke]; exact hv⟩)

theorem codes_lookup_mem (root : Node) (k : Int) (c : List Int)
    (h : mapGet? (generateHuffmanCodes root) k = some c) : (k, c) ∈ codePaths root [] := by
  have hmem := mapGet?_mem _ k c h
  rw [generateHuffmanCodes, codesImpl_eq_fold] at hmem
  rcases fold_mapSet_mem _ [] (k, c) hmem with h2 | h2
  · exact h2
  · simp at h2

theorem codes_sorted (root : Node) : keysSorted (generateHuffmanCodes root) := by
  rw [generateHuffmanCodes, codesImpl_eq_fold]
  exact fold_mapSet_sorted _ [] (by simp [keysSorted])

theorem codes_lookup_of_leaf (root : Node) (k : Int)
    (h : k ∈ (leaves root).map Prod.fst) :
    ∃ c, mapGet? (generateHuffmanCodes root) k = some c := by
  rw [generateHuffmanCodes, codesImpl_eq_fold]
  exact fold_mapSet_lookup _ [] k (Or.inl (by rw [codePaths_fst]; exact h))

theorem codes_distinct (root : Node) :
    (generateHuffmanCodes root).Pairwise (fun p q => p.2 ≠ q.2) := by
  have hs := codes_sorted root
  refine List.Pairwise.imp_of_mem ?_ hs
  intro p q hp hq hlt heq
  have hp2 : p ∈ codePaths root [] := by
    rcases fold_mapSet_mem _ [] p (by rw [generateHuffmanCodes, codesImpl_eq_fold] at hp; exact hp)
      with h | h
    · exact h
    · simp at h
  have hq2 : q ∈ codePaths root [] := by
    rcases fold_mapSet_mem _ [] q (by rw [generateHuffmanCodes, codesImpl_eq_fold] at hq; exact hq)
      with h | h
    · exact h
    · simp at h
  have hsym : Symmetric (fun p q : Int × List Int => ¬ frontOf p.2 q.2 ∧ ¬ frontOf q.2 p.2) :=
    fun a b h => ⟨h.2, h.1⟩
  have hne : p ≠ q := by
    intro hcontra
    rw [hcontra] at hlt
    omega
  have hnp := (codePaths_pairwise root []).forall hsym hp2 hq2 hne
  exact hnp.1 (heq ▸ frontOf_refl p.2)

theorem codes_prefixFree (root : Node) (k1 k2 : Int) (c1 c2 : List Int) (hne : k1 ≠ k2)
    (h1 : mapGet? (generateHuffmanCodes root) k1 = some c1)
    (h2 : mapGet? (generateHuffmanCodes root) k2 = some c2) : ¬ frontOf c1 c2 := by
  have hm1 := codes_lookup_mem root k1 c1 h1
  have hm2 := codes_lookup_mem root k2 c2 h2
  have hsym : Symmetric (fun p q : Int × List Int => ¬ frontOf p.2 q.2 ∧ ¬ frontOf q.2 p.2) :=
    fun a b h => ⟨h.2, h.1⟩
  have hnep : (k1, c1) ≠ (k2, c2) := by simp [hne]
  exact ((codePaths_pairwise root []).forall hsym hm1 hm2 hnep).1

theorem fold_mapSet_cons_gt : ∀ (entries : List (Int × Nat)) (m : List (Int × Nat))
    (k0 : Int) (v0 : Nat), (∀ p ∈ entries, k0 < p.1) →
    entries.foldl (fun m p => mapSet m p.1 p.2) ((k0, v0) :: m) =
      (k0, v0) :: entries.foldl (fun m p => mapSet m p.1 p.2) m := by
  intro entries
  induction entries with
  | nil => intro m k0 v0 _; rfl
  | cons e es ih =>
    intro m k0 v0 hgt
    have he := hgt e (by simp)
    have hstep : mapSet ((k0, v0) :: m) e.1 e.2 = (k0, v0) :: mapSet m e.1 e.2 := by
      rw [mapSet]
      rw [if_neg (by omega), if_neg (by omega)]
    simp only [List.foldl_cons, hstep]
    exact ih (mapSet m e.1 e.2) k0 v0 (fun p hp => hgt p (by simp [hp]))

theorem fold_mapSet_id (fl : List (Int × Nat)) (hs : keysSorted fl) :
    fl.foldl (fun m p => mapSet m p.1 p.2) [] = fl := by
  induction fl with
  | nil => rfl
  | cons e es ih =>
    obtain ⟨hhead, htail⟩ := List.pairwise_cons.mp hs
    simp only [List.foldl_cons]
    have h0 : mapSet ([] : List (Int × Nat)) e.1 e.2 = [(e.1, e.2)] := rfl
    rw [h0]
    have := fold_mapSet_cons_gt es [] e.1 e.2 hhead
    simp at this ⊢
    rw [this, ih htail]

/-! ## Lemmas: counting -/

theorem sumCounts_mapIncr (m : List (Int × Nat)) (k : Int) :
    sumCounts (mapIncr m k) = sumCounts m + 1 := by
  induction m with
  | nil => simp [mapIncr, sumCounts]
  | cons e rest ih =>
    obtain ⟨k2, v2⟩ := e
    by_cases h1 : k < k2
    · simp [mapIncr, h1, sumCounts]
      omega
    · by_cases h2 : k = k2
      · simp [mapIncr, h1, h2, sumCounts]
        omega
      · simp only [mapIncr, if_neg h1, if_neg h2]
        simp [sumCounts] at ih ⊢
        omega

theorem sumCounts_getFreq (text : List Int) : sumCounts (getFreq text) = text.length := by
  have gen : ∀ (t : List Int) (m : List (Int × Nat)),
      sumCounts (t.foldl mapIncr m) = sumCounts m + t.length := by
    intro t
    induction t with
    | nil => intro m; simp
    | cons c t ih =>
      intro m
      simp only [List.foldl_cons, ih, sumCounts_mapIncr, List.length_cons]
      omega
  simpa [sumCounts] using gen text []

theorem foldl_append_flatten {α β : Type} (f : α → List β) :
    ∀ (l : List α) (acc : List β),
      l.foldl (fun a x => a ++ f x) acc = acc ++ (l.map f).flatten := by
  intro l
  induction l with
  | nil => intro acc; simp
  | cons x l ih => intro acc; simp [ih]

theorem encodeBody_eq (cm : List (Int × List Int)) (text : List Int) :
    encodeBody cm text = (text.map (fun c => (mapGet? cm c).getD [])).flatten := by
  simpa using foldl_append_flatten (fun c => (mapGet? cm c).getD []) text []

theorem bitCost_mapIncr (cm : List (Int × List Int)) (m : List (Int × Nat)) (c : Int) :
    bitCost cm (mapIncr m c) = bitCost cm m + ((mapGet? cm c).getD []).length := by
  induction m with
  | nil => simp [mapIncr, bitCost]
  | cons e rest ih =>
    obtain ⟨k2, v2⟩ := e
    by_cases h1 : c < k2
    · simp [mapIncr, h1, bitCost]
      omega
    · by_cases h2 : c = k2
      · subst h2
        simp [mapIncr, h1, bitCost]
        ring_nf
        omega
      · simp only [mapIncr, if_neg h1, if_neg h2]
        simp [bitCost] at ih ⊢
        omega

theorem bitCost_getFreq (cm : List (Int × List Int)) (text : List Int) :
    bitCost cm (getFreq text) =
      (text.map (fun c => ((mapGet? cm c).getD []).length)).sum := by
  have gen : ∀ (t : List Int) (m : List (Int × Nat)),
      bitCost cm (t.foldl mapIncr m) =
        bitCost cm m + (t.map (fun c => ((mapGet? cm c).getD []).length)).sum := by
    intro t
    induction t with
    | nil => intro m; simp
    | cons c t ih =>
      intro m
      simp only [List.foldl_cons, ih, bitCost_mapIncr, List.map_cons, List.sum_cons]
      omega
  simpa [bitCost] using gen text []

theorem encodeBody_length (cm : List (Int × List Int)) (text : List Int) :
    (encodeBody cm text).length = bitCost cm (getFreq text) := by
  rw [encodeBody_eq, List.length_flatten, bitCost_getFreq, List.map_map]
  rfl

/-! ## Lemmas: codes as tree paths -/

theorem followPath_bits : ∀ (t : Node) (c : List Int) (v : Int),
    followPath t c = some v → ∀ b ∈ c, b = 48 ∨ b = 49 := by
  intro t
  induction t with
  | leaf w f =>
    intro c v h b hb
    cases c with
    | nil => simp at hb
    | cons x xs => simp [followPath] at h
  | internal f l r ihl ihr =>
    intro c v h b hb
    cases c with
    | nil => simp [followPath] at h
    | cons x xs =>
      by_cases h48 : x = 48
      · rcases List.mem_cons.mp hb with rfl | hb2
        · exact Or.inl h48
        · exact ihl xs v (by simpa [followPath, h48] using h) b hb2
      · by_cases h49 : x = 49
        · rcases List.mem_cons.mp hb with rfl | hb2
          · exact Or.inr h49
          · exact ihr xs v (by simpa [followPath, h48, h49] using h) b hb2
        · simp [followPath, h48, h49] at h

theorem codes_followPath (root : Node) (k : Int) (c : List Int)
    (h : mapGet? (generateHuffmanCodes root) k = some c) : followPath root c = some k := by
  obtain ⟨c2, hc2, hf⟩ := codePaths_front root [] k c (codes_lookup_mem root k c h)
  simpa [hc2] using hf

theorem codes_nonempty_of_internal (f : Nat) (l r : Node) (k : Int) (c : List Int)
    (h : mapGet? (generateHuffmanCodes (Node.internal f l r)) k = some c) : c ≠ [] := by
  have hmem := codes_lookup_mem _ k c h
  rw [codePaths] at hmem
  rcases List.mem_append.mp hmem with h2 | h2
  · obtain ⟨c2, hc2, _⟩ := codePaths_front l ([] ++ [48]) k c h2
    simp [hc2]
  · obtain ⟨c2, hc2, _⟩ := codePaths_front r ([] ++ [49]) k c h2
    simp [hc2]

theorem text_mem_leaves (text : List Int) (root : Node)
    (hroot : generateHuffmanTree (getFreq text) = some root) (c : Int) (hc : c ∈ text) :
    c ∈ (leaves root).map Prod.fst := by
  have hkey := getFreq_mem_fst text c hc
  have hne : getFreq text ≠ [] := by
    intro hcontra
    rw [hcontra] at hkey
    simp at hkey
  obtain ⟨r, hr1, hr2, _, _, _⟩ := generateHuffmanTree_spec (getFreq text) hne
  rw [hroot] at hr1
  obtain rfl : root = r := by simpa using hr1
  exact ((hr2.map Prod.fst).mem_iff).mpr hkey

/-! ## Lemmas: decimal digits and the strtoull model -/

theorem isDigitB_iff (b : Int) : isDigitB b = true ↔ (48 ≤ b ∧ b ≤ 57) := by
  simp [isDigitB]

theorem isspaceB_iff (b : Int) : isspaceB b = true ↔ (b = 32 ∨ (9 ≤ b ∧ b ≤ 13)) := by
  simp [isspaceB]

theorem natDigits_ne_nil (n : Nat) : natDigits n ≠ [] := by
  rw [natDigits]
  split
  · simp
  · simp

theorem natDigits_digits (n : Nat) : ∀ b ∈ natDigits n, 48 ≤ b ∧ b ≤ 57 := by
  induction n using Nat.strong_induction_on with
  | _ n ih =>
    rw [natDigits]
    split
    · intro b hb
      simp at hb
      subst hb
      rename_i hlt
      omega
    · intro b hb
      rcases List.mem_append.mp hb with h | h
      · rename_i hge
        exact ih (n / 10) (Nat.div_lt_self (by omega) (by omega)) b h
      · simp at h
        subst h
        have := Nat.mod_lt n (show 0 < 10 by omega)
        omega

theorem natDigits_foldl (n : Nat) : ∀ (acc : Nat),
    (natDigits n).foldl (fun a d => a * 10 + (d - 48).toNat) acc =
      acc * 10 ^ (natDigits n).length + n := by
  induction n using Nat.strong_induction_on with
  | _ n ih =>
    intro acc
    rw [natDigits]
    split
    · simp
    · rename_i hge
      rw [List.foldl_append]
      rw [ih (n / 10) (Nat.div_lt_self (by omega) (by omega)) acc]
      have hmod : ((48 : Int) + ((n % 10 : Nat) : Int) - 48).toNat = n % 10 := by omega
      simp only [List.foldl_cons, List.foldl_nil, hmod, List.length_append,
        List.length_cons, List.length_nil]
      rw [pow_succ]
      have hdm : n / 10 * 10 + n % 10 = n := by omega
      calc (acc * 10 ^ (natDigits (n / 10)).length + n / 10) * 10 + n % 10
          = acc * (10 ^ (natDigits (n / 10)).length * 10) + (n / 10 * 10 + n % 10) := by
            ring
        _ = acc * (10 ^ (natDigits (n / 10)).length * 10) + n := by rw [hdm]

theorem digits_run : ∀ (ds rest : List Int) (s : List Int) (i : Nat) (acc : Nat),
    s.drop i = ds ++ rest → (∀ b ∈ ds, isDigitB b = true) →
    isDigitB (charAt rest 0) = false →
    digitsLen s i = ds.length ∧
    digitsVal s i acc = ds.foldl (fun a d => a * 10 + (d - 48).toNat) acc := by
  intro ds
  induction ds with
  | nil =>
    intro rest s i acc h hd hstop
    simp only [List.nil_append] at h
    have hc : charAt s i = charAt rest 0 := by
      have := charAt_of_drop h 0
      simpa using this
    have hguard : ¬(i < s.length ∧ isDigitB (charAt s i) = true) := by
      rintro ⟨_, hdig⟩
      rw [hc, hstop] at hdig
      exact Bool.false_ne_true hdig
    constructor
    · rw [digitsLen, if_neg hguard]
      rfl
    · rw [digitsVal, if_neg hguard]
      rfl
  | cons d ds ih =>
    intro rest s i acc h hd hstop
    have hlen : i < s.length := by
      have := length_of_drop h
      simp at this
      omega
    have hc : charAt s i = d := by
      have := charAt_of_drop h 0
      simpa using this
    have hdig : isDigitB (charAt s i) = true := by
      rw [hc]
      exact hd d (by simp)
    have hdrop : s.drop (i + 1) = ds ++ rest := by
      have := drop_of_drop h 1
      simpa using this
    obtain ⟨ih1, ih2⟩ := ih rest s (i + 1) (acc * 10 + (d - 48).toNat) hdrop
      (fun b hb => hd b (by simp [hb])) hstop
    constructor
    · rw [digitsLen, if_pos ⟨hlen, hdig⟩, ih1]
      simp
    · rw [digitsVal, if_pos ⟨hlen, hdig⟩, hc, ih2]
      simp

theorem strtoull10_digits (s : List Int) (i : Nat) (n : Nat) (rest : List Int)
    (h : s.drop i = natDigits n ++ (10 :: rest)) :
    strtoull10 s i = (n, i + (natDigits n).length) := by
  obtain ⟨d, ds, hds⟩ : ∃ d ds, natDigits n = d :: ds := by
    cases hnd : natDigits n with
    | nil => exact absurd hnd (natDigits_ne_nil n)
    | cons d ds => exact ⟨d, ds, rfl⟩
  have hdig : ∀ b ∈ natDigits n, isDigitB b = true := fun b hb => by
    rw [isDigitB_iff]
    exact natDigits_digits n b hb
  have hstop : isDigitB (charAt (10 :: rest) 0) = false := by
    have hv : charAt (10 :: rest) 0 = 10 := rfl
    rw [hv]
    decide
  obtain ⟨hlen, hval⟩ := digits_run (natDigits n) (10 :: rest) s i 0 h hdig hstop
  have hc0 : charAt s i = d := by
    have := charAt_of_drop h 0
    rw [hds] at this
    simpa using this
  have hd_digit : 48 ≤ d ∧ d ≤ 57 := natDigits_digits n d (by rw [hds]; simp)
  have hws : wsLen s i = 0 := by
    rw [wsLen, if_neg]
    rintro ⟨_, hsp⟩
    rw [hc0, isspaceB_iff] at hsp
    omega
  have hlen0 : (natDigits n).length ≠ 0 := by
    rw [hds]
    simp
  simp only [strtoull10, hws, Nat.add_zero]
  rw [if_neg (show ¬(charAt s i = 43 ∨ charAt s i = 45) by rw [hc0]; omega)]
  rw [if_neg (show ¬(digitsLen s i = 0) by rw [hlen]; exact hlen0)]
  rw [if_neg (show ¬(charAt s i = 45) by rw [hc0]; omega)]
  rw [hlen, hval, natDigits_foldl n 0]
  simp

/-! ## Lemmas: parsing the self-contained header -/

theorem freqLines_eq (fl : List (Int × Nat)) :
    freqLines fl = (fl.map (fun f => f.1 :: 32 :: (natDigits f.2 ++ [10]))).flatten := by
  simpa using foldl_append_flatten (fun f : Int × Nat => f.1 :: 32 :: (natDigits f.2 ++ [10])) fl []

theorem parseHeader_run : ∀ (fl : List (Int × Nat)) (s : List Int) (i : Nat)
    (acc : List (Int × Nat)) (rest : List Int),
    s.drop i = freqLines fl ++ (104 :: 101 :: 116 :: 10 :: rest) →
    parseHeader s i acc =
      .ok (fl.foldl (fun m p => mapSet m p.1 p.2) acc, i + (freqLines fl).length + 4) := by
  intro fl
  induction fl with
  | nil =>
    intro s i acc rest h
    have hfl : freqLines [] = ([] : List Int) := rfl
    rw [hfl, List.nil_append] at h
    have h0 : charAt s i = 104 := by simpa using charAt_of_drop h 0
    have h1 : charAt s (i + 1) = 101 := by simpa [charAt] using charAt_of_drop h 1
    have h2 : charAt s (i + 2) = 116 := by simpa [charAt] using charAt_of_drop h 2
    have hlen : s.length - i = 4 + rest.length := by
      have := length_of_drop h
      simp at this
      omega
    have hbound : i + 2 < s.length := by omega
    rw [parseHeader, if_pos ⟨h0, hbound, h1, h2⟩]
    simp [hfl]
  | cons e fl ih =>
    intro s i acc rest h
    obtain ⟨k, n⟩ := e
    have hfl : freqLines ((k, n) :: fl) =
        (k :: 32 :: (natDigits n ++ [10])) ++ freqLines fl := by
      rw [freqLines_eq, freqLines_eq]
      simp
    rw [hfl, List.append_assoc] at h
    have hndpos : 0 < (natDigits n).length := List.length_pos.mpr (natDigits_ne_nil n)
    have h0 : charAt s i = k := by simpa using charAt_of_drop h 0
    have h1 : charAt s (i + 1) = 32 := by simpa [charAt] using charAt_of_drop h 1
    have hslen : s.length - i =
        (natDigits n).length + 3 + ((freqLines fl).length + (4 + rest.length)) := by
      have := length_of_drop h
      simp at this
      omega
    have g1 : ¬(charAt s i = 104 ∧ i + 2 < s.length ∧ charAt s (i + 1) = 101 ∧
        charAt s (i + 2) = 116) := by
      rintro ⟨_, _, hx, _⟩
      rw [h1] at hx
      omega
    have g2 : ¬(isspaceB (charAt s (i + 1)) = false) := by
      rw [h1]
      decide
    have g3 : ¬(s.length ≤ i + 2) := by omega
    have hdrop2 : s.drop (i + 2) =
        natDigits n ++ (10 :: (freqLines fl ++ (104 :: 101 :: 116 :: 10 :: rest))) := by
      have := drop_of_drop h 2
      simpa [List.append_assoc] using this
    have hstr := strtoull10_digits s (i + 2) n _ hdrop2
    rw [parseHeader, if_neg g1, if_neg g2, if_neg g3, hstr, h0]
    show parseHeader s (i + 2 + (natDigits n).length + 1) (mapSet acc k n) = _
    have hdrop3 : s.drop (i + 2 + (natDigits n).length + 1) =
        freqLines fl ++ (104 :: 101 :: 116 :: 10 :: rest) := by
      have heq : i + 2 + (natDigits n).length + 1 =
          i + (k :: 32 :: (natDigits n ++ [10])).length := by
        simp
        omega
      rw [heq]
      have := drop_of_drop h (k :: 32 :: (natDigits n ++ [10])).length
      rwa [List.drop_left] at this
    rw [ih s (i + 2 + (natDigits n).length + 1) (mapSet acc k n) rest hdrop3]
    have hlenfl : (freqLines ((k, n) :: fl)).length =
        (natDigits n).length + 3 + (freqLines fl).length := by
      rw [hfl]
      simp
      omega
    simp only [List.foldl_cons]
    have hidx : i + 2 + (natDigits n).length + 1 + (freqLines fl).length + 4 =
        i + (freqLines ((k, n) :: fl)).length + 4 := by
      rw [hlenfl]
      omega
    rw [hidx]

/-! ## Lemmas: the decode loop -/

theorem findCode_finds : ∀ (fuel : Nat) (rev : List (List Int × Int)) (s : List Int)
    (i j : Nat) (c : List Int) (w : Int) (tail : List Int),
    i + c.length - j ≤ fuel →
    s.drop i = c ++ tail → strMapFind rev c = some w →
    (∀ l, 1 ≤ l → l < c.length → strMapFind rev (c.take l) = none) →
    i < j → j ≤ i + c.length →
    findCode rev s i j = (i + c.length, some w) := by
  intro fuel
  induction fuel with
  | zero =>
    intro rev s i j c w tail hf h hfind hshort hij hjle
    have hj : j = i + c.length := by omega
    subst hj
    have hlen : i + c.length ≤ s.length := by
      have := length_of_drop h
      simp at this
      omega
    rw [findCode, if_pos hlen]
    have hsub : (s.drop i).take (i + c.length - i) = c := by
      rw [h]
      have hi : i + c.length - i = c.length := by omega
      rw [hi, List.take_left]
    rw [hsub, hfind]
  | succ fuel ih =>
    intro rev s i j c w tail hf h hfind hshort hij hjle
    by_cases hj : j = i + c.length
    · subst hj
      have hlen : i + c.length ≤ s.length := by
        have := length_of_drop h
        simp at this
        omega
      rw [findCode, if_pos hlen]
      have hsub : (s.drop i).take (i + c.length - i) = c := by
        rw [h]
        have hi : i + c.length - i = c.length := by omega
        rw [hi, List.take_left]
      rw [hsub, hfind]
    · have hjlt : j < i + c.length := by omega
      have hlen : j ≤ s.length := by
        have := length_of_drop h
        simp at this
        omega
      rw [findCode, if_pos hlen]
      have hsub : (s.drop i).take (j - i) = c.take (j - i) := by
        rw [h]
        exact List.take_append_of_le_length (by omega)
      rw [hsub, hshort (j - i) (by omega) (by omega)]
      exact ih rev s i (j + 1) c w tail (by omega) h hfind hshort (by omega) (by omega)

theorem findCode_none : ∀ (fuel : Nat) (rev : List (List Int × Int)) (s : List Int)
    (i j : Nat) (g : List Int),
    s.length + 1 - j ≤ fuel →
    s.drop i = g → i < s.length →
    (∀ l, 1 ≤ l → l ≤ g.length → strMapFind rev (g.take l) = none) →
    i < j → j ≤ s.length + 1 →
    findCode rev s i j = (s.length + 1, none) := by
  intro fuel
  induction fuel with
  | zero =>
    intro rev s i j g hf h hi hg hij hjle
    have hj : j = s.length + 1 := by omega
    subst hj
    rw [findCode, if_neg (by omega)]
  | succ fuel ih =>
    intro rev s i j g hf h hi hg hij hjle
    by_cases hj : j = s.length + 1
    · subst hj
      rw [findCode, if_neg (by omega)]
    · have hjle2 : j ≤ s.length := by omega
      rw [findCode, if_pos hjle2]
      have hglen : s.length = i + g.length := by
        have := length_of_drop h
        omega
      have hsub : (s.drop i).take (j - i) = g.take (j - i) := by rw [h]
      rw [hsub, hg (j - i) (by omega) (by omega)]
      exact ih rev s i (j + 1) g (by omega) h hi hg (by omega) (by omega)

theorem decodeLoop_run : ∀ (ws : List (Int × List Int)) (rev : List (List Int × Int))
    (s : List Int) (i : Nat) (acc : List Int) (g : List Int),
    s.drop i = (ws.map Prod.snd).flatten ++ g →
    (∀ p ∈ ws, strMapFind rev p.2 = some p.1) →
    (∀ p ∈ ws, p.2 ≠ []) →
    (∀ p ∈ ws, ∀ l, 1 ≤ l → l < p.2.length → strMapFind rev (p.2.take l) = none) →
    (∀ l, 1 ≤ l → l ≤ g.length → strMapFind rev (g.take l) = none) →
    decodeLoop rev s i acc = acc ++ ws.map Prod.fst := by
  intro ws
  induction ws with
  | nil =>
    intro rev s i acc g h hfind hne hshort hg
    simp only [List.map_nil, List.flatten_nil, List.nil_append] at h
    by_cases hi : i < s.length
    · rw [decodeLoop, if_pos hi]
      have hfc := findCode_none (s.length + 1) rev s i (i + 1) g (by omega) h hi hg
        (by omega) (by
          have := length_of_drop h
          omega)
      rw [hfc]
      show decodeLoop rev s (s.length + 1) acc = acc ++ []
      rw [decodeLoop, if_neg (by omega)]
      simp
    · rw [decodeLoop, if_neg hi]
      simp
  | cons p ws ih =>
    intro rev s i acc g h hfind hne hshort hg
    simp only [List.map_cons, List.flatten_cons, List.append_assoc] at h
    have hpne : p.2 ≠ [] := hne p (by simp)
    have hplen : 0 < p.2.length := List.length_pos.mpr hpne
    have hi : i < s.length := by
      have := length_of_drop h
      simp at this
      omega
    rw [decodeLoop, if_pos hi]
    have hfc := findCode_finds (i + p.2.length) rev s i (i + 1) p.2 p.1 _ (by omega) h
      (hfind p (by simp)) (fun l h1 h2 => hshort p (by simp) l h1 h2) (by omega) (by omega)
    rw [hfc]
    have hdrop : s.drop (i + p.2.length) = (ws.map Prod.snd).flatten ++ g := by
      have := drop_of_drop h p.2.length
      rwa [List.drop_left] at this
    show decodeLoop rev s (i + p.2.length) (acc ++ [p.1]) = _
    rw [ih rev s (i + p.2.length) (acc ++ [p.1]) g hdrop
      (fun q hq => hfind q (by simp [hq])) (fun q hq => hne q (by simp [hq]))
      (fun q hq => hshort q (by simp [hq])) hg]
    simp

/-! ## Lemmas: the reversed code map and the full round trip -/

theorem codes_mem_paths (root : Node) (p : Int × List Int)
    (hp : p ∈ generateHuffmanCodes root) : p ∈ codePaths root [] := by
  rw [generateHuffmanCodes, codesImpl_eq_fold] at hp
  rcases fold_mapSet_mem _ [] p hp with h | h
  · exact h
  · simp at h

theorem rev_find_code (root : Node) (k : Int) (c : List Int)
    (h : mapGet? (generateHuffmanCodes root) k = some c) :
    strMapFind (reverseCodes (generateHuffmanCodes root)) c = some k := by
  unfold reverseCodes
  exact strMapFind_fold_mem _ [] k c (mapGet?_mem _ k c h) (codes_distinct root)

theorem frontOf_take (c : List Int) (l : Nat) : frontOf (c.take l) c :=
  ⟨c.drop l, (List.take_append_drop l c).symm⟩

theorem codes_take_not_key (root : Node) (k : Int) (c : List Int) (l : Nat)
    (hk : mapGet? (generateHuffmanCodes root) k = some c) (h1 : 1 ≤ l) (h2 : l < c.length) :
    strMapFind (reverseCodes (generateHuffmanCodes root)) (c.take l) = none := by
  cases hfind : strMapFind (reverseCodes (generateHuffmanCodes root)) (c.take l) with
  | none => rfl
  | some y =>
    exfalso
    rcases strMapFind_fold_sound _ [] (c.take l) y hfind with hmem | hmem
    · have hy : (y, c.take l) ∈ codePaths root [] := codes_mem_paths root _ hmem
      have hkc : (k, c) ∈ codePaths root [] := codes_lookup_mem root k c hk
      have hsym : Symmetric
          (fun p q : Int × List Int => ¬ frontOf p.2 q.2 ∧ ¬ frontOf q.2 p.2) :=
        fun a b hab => ⟨hab.2, hab.1⟩
      have hne : (y, c.take l) ≠ (k, c) := by
        intro hcontra
        have : (c.take l).length = c.length := by rw [Prod.mk.injEq] at hcontra; rw [hcontra.2]
        rw [List.length_take] at this
        omega
      have hnp := (codePaths_pairwise root []).forall hsym hy hkc hne
      exact hnp.1 (frontOf_take c l)
    · simp [strMapFind] at hmem

theorem roundtrip_master (s : List Int) (root : Node) (g : List Int)
    (h2 : 2 ≤ (getFreq s).length)
    (hroot : generateHuffmanTree (getFreq s) = some root)
    (hg : ∀ l, 1 ≤ l → l ≤ g.length →
      strMapFind (reverseCodes (generateHuffmanCodes root)) (g.take l) = none) :
    decode (hetLine ++ freqLines (getFreq s) ++ hetLine ++
      (encodeBody (generateHuffmanCodes root) s ++ g)) = Except.ok s := by
  have hsorted := getFreq_sorted s
  have hcheck1 : (hetLine ++ freqLines (getFreq s) ++ hetLine ++
      (encodeBody (generateHuffmanCodes root) s ++ g)).take 3 = [104, 101, 116] := by
    simp [hetLine]
  have hcheck2 : charAt (hetLine ++ freqLines (getFreq s) ++ hetLine ++
      (encodeBody (generateHuffmanCodes root) s ++ g)) 3 = 10 := by
    simp [hetLine, charAt]
  have hdrop4 : (hetLine ++ freqLines (getFreq s) ++ hetLine ++
      (encodeBody (generateHuffmanCodes root) s ++ g)).drop 4 =
      freqLines (getFreq s) ++ (104 :: 101 :: 116 :: 10 ::
        (encodeBody (generateHuffmanCodes root) s ++ g)) := by
    simp [hetLine]
  have hparse := parseHeader_run (getFreq s) _ 4 []
    (encodeBody (generateHuffmanCodes root) s ++ g) hdrop4
  rw [fold_mapSet_id (getFreq s) hsorted] at hparse
  rw [decode, if_pos ⟨hcheck1, by rw [hcheck2]; rfl⟩, hparse]
  show (match generateHuffmanTree (getFreq s) with
    | none => Except.error DecodeErr.ubEmptyTop
    | some root =>
        Except.ok (decodeLoop (reverseCodes (generateHuffmanCodes root)) _
          (4 + (freqLines (getFreq s)).length + 4) [])) = Except.ok s
  rw [hroot]
  show Except.ok (decodeLoop (reverseCodes (generateHuffmanCodes root)) _
    (4 + (freqLines (getFreq s)).length + 4) []) = Except.ok s
  have hdropL : (hetLine ++ freqLines (getFreq s) ++ hetLine ++
      (encodeBody (generateHuffmanCodes root) s ++ g)).drop
        (4 + (freqLines (getFreq s)).length + 4) =
      encodeBody (generateHuffmanCodes root) s ++ g := by
    have e2 := drop_of_drop hdrop4 (freqLines (getFreq s)).length
    rw [List.drop_left] at e2
    have e3 := drop_of_drop e2 4
    rw [show (104 :: 101 :: 116 :: 10 ::
        (encodeBody (generateHuffmanCodes root) s ++ g) : List Int).drop 4 =
        encodeBody (generateHuffmanCodes root) s ++ g from rfl] at e3
    exact e3
  obtain ⟨fr, lr, rr, hri⟩ := root_internal_of_two (getFreq s) root hroot h2
  have hbody : encodeBody (generateHuffmanCodes root) s =
      ((s.map (fun c => (c, (mapGet? (generateHuffmanCodes root) c).getD []))).map
        Prod.snd).flatten := by
    rw [encodeBody_eq, List.map_map]
    rfl
  have hrun := decodeLoop_run
    (s.map (fun c => (c, (mapGet? (generateHuffmanCodes root) c).getD [])))
    (reverseCodes (generateHuffmanCodes root)) _
    (4 + (freqLines (getFreq s)).length + 4) [] g
    (by rw [hdropL, hbody])
    ?hfind ?hne ?hshort hg
  case hfind =>
    intro p hp
    obtain ⟨c, hc, rfl⟩ := List.mem_map.mp hp
    obtain ⟨cw, hcw⟩ := codes_lookup_of_leaf root c (text_mem_leaves s root hroot c hc)
    simp only [hcw, Option.getD_some]
    exact rev_find_code root c cw hcw
  case hne =>
    intro p hp
    obtain ⟨c, hc, rfl⟩ := List.mem_map.mp hp
    obtain ⟨cw, hcw⟩ := codes_lookup_of_leaf root c (text_mem_leaves s root hroot c hc)
    simp only [hcw, Option.getD_some]
    rw [hri] at hcw
    exact codes_nonempty_of_internal fr lr rr c cw hcw
  case hshort =>
    intro p hp l h1 hl
    obtain ⟨c, hc, rfl⟩ := List.mem_map.mp hp
    obtain ⟨cw, hcw⟩ := codes_lookup_of_leaf root c (text_mem_leaves s root hroot c hc)
    simp only [hcw, Option.getD_some] at hl ⊢
    exact codes_take_not_key root c cw l hcw h1 hl
  rw [hrun]
  simp only [List.nil_append, List.map_map]
  have hid : (Prod.fst ∘ fun c : Int =>
      (c, (mapGet? (generateHuffmanCodes root) c).getD [])) = id := by
    funext c
    rfl
  rw [hid, List.map_id]

/-! ## Evaluation equations for the well-founded definitions

These restate the defining equations in a form `simp` can use to evaluate
the functions on concrete inputs (the raw equations of well-founded
definitions do not reduce in the kernel). -/

theorem huffLoop_nil : huffLoop [] = [] := by
  rw [huffLoop]
  intro a b rest hcontra
  simp at hcontra

theorem huffLoop_one (a : Node) : huffLoop [a] = [a] := by
  rw [huffLoop]
  intro a1 b rest hcontra
  simp at hcontra

theorem huffLoop_cons (a b : Node) (rest : List Node) :
    huffLoop (a :: b :: rest) = huffLoop (pqPush rest (Node.internal (a.freq + b.freq) a b)) := by
  rw [huffLoop]

theorem natDigits_small (n : Nat) (h : n < 10) : natDigits n = [48 + (n : Int)] := by
  rw [natDigits, if_pos h]

theorem natDigits_large (n : Nat) (h : ¬ n < 10) :
    natDigits n = natDigits (n / 10) ++ [48 + ((n % 10 : Nat) : Int)] := by
  rw [natDigits, if_neg h]

theorem wsLen_true (s : List Int) (i : Nat) (h : i < s.length ∧ isspaceB (charAt s i) = true) :
    wsLen s i = wsLen s (i + 1) + 1 := by
  rw [wsLen, if_pos h]

theorem wsLen_false (s : List Int) (i : Nat)
    (h : ¬(i < s.length ∧ isspaceB (charAt s i) = true)) : wsLen s i = 0 := by
  rw [wsLen, if_neg h]

theorem digitsLen_true (s : List Int) (i : Nat)
    (h : i < s.length ∧ isDigitB (charAt s i) = true) :
    digitsLen s i = digitsLen s (i + 1) + 1 := by
  rw [digitsLen, if_pos h]

theorem digitsLen_false (s : List Int) (i : Nat)
    (h : ¬(i < s.length ∧ isDigitB (charAt s i) = true)) : digitsLen s i = 0 := by
  rw [digitsLen, if_neg h]

theorem digitsVal_true (s : List Int) (i : Nat) (acc : Nat)
    (h : i < s.length ∧ isDigitB (charAt s i) = true) :
    digitsVal s i acc = digitsVal s (i + 1) (acc * 10 + (charAt s i - 48).toNat) := by
  rw [digitsVal, if_pos h]

theorem digitsVal_false (s : List Int) (i : Nat) (acc : Nat)
    (h : ¬(i < s.length ∧ isDigitB (charAt s i) = true)) : digitsVal s i acc = acc := by
  rw [digitsVal, if_neg h]

theorem parseHeader_sentinel (s : List Int) (i : Nat) (freq : List (Int × Nat))
    (h : charAt s i = 104 ∧ i + 2 < s.length ∧ charAt s (i + 1) = 101 ∧
      charAt s (i + 2) = 116) :
    parseHeader s i freq = .ok (freq, i + 4) := by
  rw [parseHeader, if_pos h]

theorem parseHeader_space_err (s : List Int) (i : Nat) (freq : List (Int × Nat))
    (h1 : ¬(charAt s i = 104 ∧ i + 2 < s.length ∧ charAt s (i + 1) = 101 ∧
      charAt s (i + 2) = 116))
    (h2 : isspaceB (charAt s (i + 1)) = false) :
    parseHeader s i freq = .error (.expectedSpace (charAt s i)) := by
  rw [parseHeader, if_neg h1, if_pos h2]

theorem parseHeader_len_err (s : List Int) (i : Nat) (freq : List (Int × Nat))
    (h1 : ¬(charAt s i = 104 ∧ i + 2 < s.length ∧ charAt s (i + 1) = 101 ∧
      charAt s (i + 2) = 116))
    (h2 : ¬(isspaceB (charAt s (i + 1)) = false))
    (h3 : s.length ≤ i + 2) :
    parseHeader s i freq = .error .invalidSymbol := by
  rw [parseHeader, if_neg h1, if_neg h2, if_pos h3]

theorem parseHeader_step (s : List Int) (i : Nat) (freq : List (Int × Nat))
    (h1 : ¬(charAt s i = 104 ∧ i + 2 < s.length ∧ charAt s (i + 1) = 101 ∧
      charAt s (i + 2) = 116))
    (h2 : ¬(isspaceB (charAt s (i + 1)) = false))
    (h3 : ¬(s.length ≤ i + 2)) :
    parseHeader s i freq = parseHeader s ((strtoull10 s (i + 2)).2 + 1)
      (mapSet freq (charAt s i) (strtoull10 s (i + 2)).1) := by
  rw [parseHeader, if_neg h1, if_neg h2, if_neg h3]

theorem findCode_le (rev : List (List Int × Int)) (s : List Int) (i j : Nat)
    (h : j ≤ s.length) :
    findCode rev s i j = match strMapFind rev ((s.drop i).take (j - i)) with
      | some sym => (j, some sym)
      | none => findCode rev s i (j + 1) := by
  rw [findCode, if_pos h]

theorem findCode_gt (rev : List (List Int × Int)) (s : List Int) (i j : Nat)
    (h : ¬ j ≤ s.length) : findCode rev s i j = (j, none) := by
  rw [findCode, if_neg h]

theorem decodeLoop_lt (rev : List (List Int × Int)) (s : List Int) (i : Nat) (acc : List Int)
    (h : i < s.length) :
    decodeLoop rev s i acc = match findCode rev s i (i + 1) with
      | (j, some sym) => decodeLoop rev s j (acc ++ [sym])
      | (j, none) => decodeLoop rev s j acc := by
  rw [decodeLoop, if_pos h]
  rcases hfc : findCode rev s i (i + 1) with ⟨j, o⟩
  cases o <;> rfl

theorem decodeLoop_ge (rev : List (List Int × Int)) (s : List Int) (i : Nat) (acc : List Int)
    (h : ¬ i < s.length) : decodeLoop rev s i acc = acc := by
  rw [decodeLoop, if_neg h]

/-! ## Claim theorems -/

/-- C1 (amended): decoding the self-contained encoded output reproduces the
input exactly for every input with at least two distinct symbols.  (The
original claim, over all non-empty inputs, fails for inputs with a single
distinct symbol: the one-leaf tree assigns the empty code, the body is
empty, and decode returns the empty string; see the counterexample.) -/
theorem C1_roundtrip_amended (s : List Int) (h2 : 2 ≤ (getFreq s).length) :
    ∃ e, encode s = some e ∧ decode e = Except.ok s := by
  have hne : getFreq s ≠ [] := by
    intro h
    rw [h] at h2
    simp at h2
  obtain ⟨root, hroot, _, _, _, _⟩ := generateHuffmanTree_spec (getFreq s) hne
  refine ⟨hetLine ++ freqLines (getFreq s) ++ hetLine ++
    encodeBody (generateHuffmanCodes root) s, ?_, ?_⟩
  · rw [encode, hroot]
  · have hm := roundtrip_master s root [] h2 hroot
      (fun l h1 hl => absurd hl (by simp only [List.length_nil]; omega))
    simpa using hm

/-- C1 counterexample: for the single-distinct-symbol input "bb", the
self-contained round trip loses the input: decode returns the empty
string. -/
theorem C1_roundtrip_counterexample :
    encode [98, 98] = some [104, 101, 116, 10, 98, 32, 50, 10, 104, 101, 116, 10] ∧
    decode [104, 101, 116, 10, 98, 32, 50, 10, 104, 101, 116, 10] = Except.ok [] ∧
    (Except.ok [] : Except DecodeErr (List Int)) ≠ Except.ok [98, 98] := by
  refine ⟨?_, ?_, by simp⟩
  · simp +decide [encode, getFreq, mapIncr, generateHuffmanTree, pqPush, Greater, Node.freq,
      Node.value, huffLoop_nil, huffLoop_one, huffLoop_cons, generateHuffmanCodes,
      generateHuffmanCodesImpl, mapSet, hetLine, freqLines, natDigits_small, natDigits_large,
      encodeBody, mapGet?]
  · simp +decide [decode, charAt, isspaceB, isDigitB, parseHeader_sentinel,
      parseHeader_space_err, parseHeader_len_err, parseHeader_step, strtoull10, wsLen_true,
      wsLen_false, digitsLen_true, digitsLen_false, digitsVal_true, digitsVal_false, mapSet,
      generateHuffmanTree, pqPush, Greater, Node.freq, Node.value, huffLoop_nil, huffLoop_one,
      huffLoop_cons, generateHuffmanCodes, generateHuffmanCodesImpl, reverseCodes, strMapSet,
      strMapFind, findCode_le, findCode_gt, decodeLoop_lt, decodeLoop_ge]

/-- C1 witness: the amended round trip at the concrete input "ab". -/
theorem C1_roundtrip_amended_witness :
    2 ≤ (getFreq [97, 98]).length ∧
    (∃ e, encode [97, 98] = some e ∧ decode e = Except.ok [97, 98]) :=
  ⟨by decide, C1_roundtrip_amended [97, 98] (by decide)⟩

/-- C2: the single-repeated-symbol input "aaaa" does NOT round trip: the
one-leaf tree gets the empty code, the encoded output is the bare header
"het\na 4\nhet\n", and decoding it returns the empty string instead of
"aaaa".  This evaluates the code at the failing input of the claim. -/
theorem C2_single_symbol_eval :
    encode [97, 97, 97, 97] = some [104, 101, 116, 10, 97, 32, 52, 10, 104, 101, 116, 10] ∧
    decode [104, 101, 116, 10, 97, 32, 52, 10, 104, 101, 116, 10] = Except.ok [] ∧
    (Except.ok [] : Except DecodeErr (List Int)) ≠ Except.ok [97, 97, 97, 97] := by
  refine ⟨?_, ?_, by simp⟩
  · simp +decide [encode, getFreq, mapIncr, generateHuffmanTree, pqPush, Greater, Node.freq,
      Node.value, huffLoop_nil, huffLoop_one, huffLoop_cons, generateHuffmanCodes,
      generateHuffmanCodesImpl, mapSet, hetLine, freqLines, natDigits_small, natDigits_large,
      encodeBody, mapGet?]
  · simp +decide [decode, charAt, isspaceB, isDigitB, parseHeader_sentinel,
      parseHeader_space_err, parseHeader_len_err, parseHeader_step, strtoull10, wsLen_true,
      wsLen_false, digitsLen_true, digitsLen_false, digitsVal_true, digitsVal_false, mapSet,
      generateHuffmanTree, pqPush, Greater, Node.freq, Node.value, huffLoop_nil, huffLoop_one,
      huffLoop_cons, generateHuffmanCodes, generateHuffmanCodesImpl, reverseCodes, strMapSet,
      strMapFind, findCode_le, findCode_gt, decodeLoop_lt, decodeLoop_ge]

/-- C3 (amended): decode throws on a missing opening sentinel and on a
missing space separator after a symbol, and a header-parse error aborts the
whole decode with no partial result; but a non-numeric or truncated
frequency value is NOT rejected (strtoull converts no digits, yields 0 and
leaves the position unchanged) — see the counterexample, where such an
input decodes to a normal (empty) result. -/
theorem C3_format_error_amended :
    (∀ s : List Int, ¬(s.take 3 = [104, 101, 116] ∧ isspaceB (charAt s 3) = true) →
      decode s = Except.error DecodeErr.notEncoded) ∧
    (∀ (s : List Int) (i : Nat) (acc : List (Int × Nat)),
      ¬(charAt s i = 104 ∧ i + 2 < s.length ∧ charAt s (i + 1) = 101 ∧
        charAt s (i + 2) = 116) →
      isspaceB (charAt s (i + 1)) = false →
      parseHeader s i acc = Except.error (DecodeErr.expectedSpace (charAt s i))) ∧
    (∀ (s : List Int) (e : DecodeErr),
      s.take 3 = [104, 101, 116] → isspaceB (charAt s 3) = true →
      parseHeader s 4 [] = Except.error e → decode s = Except.error e) := by
  refine ⟨?_, ?_, ?_⟩
  · intro s h
    rw [decode, if_neg h]
  · intro s i acc h1 h2
    exact parseHeader_space_err s i acc h1 h2
  · intro s e h1 h2 hp
    rw [decode, if_pos ⟨h1, h2⟩, hp]

/-- C3 counterexample: the malformed header "het\nz Qhet" (non-numeric
frequency field "Qhet" after symbol 'z') is not rejected: strtoull yields 0,
the scan then finds "het" inside the junk and treats it as the closing
sentinel, and decode returns the empty string with no error. -/
theorem C3_format_error_counterexample :
    decode [104, 101, 116, 10, 122, 32, 81, 104, 101, 116] = Except.ok [] := by
  simp +decide [decode, charAt, isspaceB, isDigitB, parseHeader_sentinel,
    parseHeader_space_err, parseHeader_len_err, parseHeader_step, strtoull10, wsLen_true,
    wsLen_false, digitsLen_true, digitsLen_false, digitsVal_true, digitsVal_false, mapSet,
    generateHuffmanTree, pqPush, Greater, Node.freq, Node.value, huffLoop_nil, huffLoop_one,
    huffLoop_cons, generateHuffmanCodes, generateHuffmanCodesImpl, reverseCodes, strMapSet,
    strMapFind, findCode_le, findCode_gt, decodeLoop_lt, decodeLoop_ge]

/-- C3 witness: the three amended guarantees at concrete inputs. -/
theorem C3_format_error_amended_witness :
    decode [] = Except.error DecodeErr.notEncoded ∧
    parseHeader [104, 101, 116, 10, 97, 97] 4 [] =
      Except.error (DecodeErr.expectedSpace 97) ∧
    decode [104, 101, 116, 10, 97, 97] = Except.error (DecodeErr.expectedSpace 97) := by
  have h2 : parseHeader [104, 101, 116, 10, 97, 97] 4 [] =
      Except.error (DecodeErr.expectedSpace 97) := by
    have h := C3_format_error_amended.2.1 [104, 101, 116, 10, 97, 97] 4 []
      (by decide) (by decide)
    simpa [charAt] using h
  exact ⟨C3_format_error_amended.1 [] (by decide), h2,
    C3_format_error_amended.2.2 [104, 101, 116, 10, 97, 97] (DecodeErr.expectedSpace 97)
      (by decide) (by decide) h2⟩

/-- C4: the code table generated from the tree built over any non-empty
frequency table is prefix-free: the codes of two distinct symbols are never
in the prefix relation. -/
theorem C4_prefix_free (fl : List (Int × Nat)) (root : Node) (k1 k2 : Int)
    (c1 c2 : List Int) (hroot : generateHuffmanTree fl = some root) (hne : k1 ≠ k2)
    (h1 : mapGet? (generateHuffmanCodes root) k1 = some c1)
    (h2 : mapGet? (generateHuffmanCodes root) k2 = some c2) : ¬ frontOf c1 c2 :=
  codes_prefixFree root k1 k2 c1 c2 hne h1 h2

/-- C4 witness: prefix-freedom at the concrete table {a:1, b:1}. -/
theorem C4_prefix_free_witness :
    generateHuffmanTree [(97, 1), (98, 1)] =
      some (Node.internal 2 (Node.leaf 97 1) (Node.leaf 98 1)) ∧
    mapGet? (generateHuffmanCodes (Node.internal 2 (Node.leaf 97 1) (Node.leaf 98 1))) 97 =
      some [48] ∧
    mapGet? (generateHuffmanCodes (Node.internal 2 (Node.leaf 97 1) (Node.leaf 98 1))) 98 =
      some [49] ∧
    ¬ frontOf [48] [49] := by
  have ht : generateHuffmanTree [(97, 1), (98, 1)] =
      some (Node.internal 2 (Node.leaf 97 1) (Node.leaf 98 1)) := by
    simp +decide [generateHuffmanTree, pqPush, Greater, Node.freq, Node.value,
      huffLoop_nil, huffLoop_one, huffLoop_cons]
  exact ⟨ht, by decide, by decide,
    C4_prefix_free [(97, 1), (98, 1)] _ 97 98 [48] [49] ht (by decide) (by decide) (by decide)⟩

/-- C5: the frequency table counts sum to the input length, and the encoded
body (the part of encode's output after the closing sentinel) has exactly
sum over symbols of (code length × frequency) bit characters. -/
theorem C5_conservation (s : List Int) (root : Node)
    (hroot : generateHuffmanTree (getFreq s) = some root) :
    encode s = some (hetLine ++ freqLines (getFreq s) ++ hetLine ++
      encodeBody (generateHuffmanCodes root) s) ∧
    sumCounts (getFreq s) = s.length ∧
    (encodeBody (generateHuffmanCodes root) s).length =
      bitCost (generateHuffmanCodes root) (getFreq s) := by
  refine ⟨?_, sumCounts_getFreq s, encodeBody_length _ s⟩
  rw [encode, hroot]

/-- C5 witness: conservation at the concrete input "aab". -/
theorem C5_conservation_witness :
    generateHuffmanTree (getFreq [97, 97, 98]) =
      some (Node.internal 3 (Node.leaf 98 1) (Node.leaf 97 2)) ∧
    (encode [97, 97, 98] = some (hetLine ++ freqLines (getFreq [97, 97, 98]) ++ hetLine ++
        encodeBody (generateHuffmanCodes (Node.internal 3 (Node.leaf 98 1) (Node.leaf 97 2)))
          [97, 97, 98]) ∧
      sumCounts (getFreq [97, 97, 98]) = [97, 97, 98].length ∧
      (encodeBody (generateHuffmanCodes (Node.internal 3 (Node.leaf 98 1) (Node.leaf 97 2)))
          [97, 97, 98]).length =
        bitCost (generateHuffmanCodes (Node.internal 3 (Node.leaf 98 1) (Node.leaf 97 2)))
          (getFreq [97, 97, 98])) := by
  have ht : generateHuffmanTree (getFreq [97, 97, 98]) =
      some (Node.internal 3 (Node.leaf 98 1) (Node.leaf 97 2)) := by
    simp +decide [getFreq, mapIncr, generateHuffmanTree, pqPush, Greater, Node.freq,
      Node.value, huffLoop_nil, huffLoop_one, huffLoop_cons]
  exact ⟨ht, C5_conservation [97, 97, 98] _ ht⟩

/-- C6 (amended): when the bit stream of a well-formed self-contained output
ends mid-code (a nonempty strict prefix of some symbol's code is appended),
decode does NOT fail: it silently drops the trailing partial code and
returns exactly the symbols decoded so far.  (The original claim said this
case raises a DecodeError; see the counterexample.) -/
theorem C6_truncated_amended (s e : List Int) (root : Node) (k : Int) (cw tl : List Int)
    (h2 : 2 ≤ (getFreq s).length)
    (hroot : generateHuffmanTree (getFreq s) = some root)
    (henc : encode s = some e)
    (hk : mapGet? (generateHuffmanCodes root) k = some cw)
    (htlne : tl ≠ []) (hfront : frontOf tl cw) (hproper : tl ≠ cw) :
    decode (e ++ tl) = Except.ok s := by
  rw [encode, hroot] at henc
  obtain rfl : hetLine ++ freqLines (getFreq s) ++ hetLine ++
      encodeBody (generateHuffmanCodes root) s = e := Option.some.inj henc
  obtain ⟨t, ht⟩ := hfront
  have htne : t ≠ [] := by
    intro hcontra
    rw [hcontra, List.append_nil] at ht
    exact hproper ht.symm
  have hlen : tl.length < cw.length := by
    rw [ht, List.length_append]
    have := List.length_pos.mpr htne
    omega
  have hg : ∀ l, 1 ≤ l → l ≤ tl.length →
      strMapFind (reverseCodes (generateHuffmanCodes root)) (tl.take l) = none := by
    intro l h1 hl
    have htake : tl.take l = cw.take l := by
      rw [ht]
      exact (List.take_append_of_le_length hl).symm
    rw [htake]
    exact codes_take_not_key root k cw l hk h1 (by omega)
  have hm := roundtrip_master s root tl h2 hroot hg
  rw [show (hetLine ++ freqLines (getFreq s) ++ hetLine ++
      encodeBody (generateHuffmanCodes root) s) ++ tl =
      hetLine ++ freqLines (getFreq s) ++ hetLine ++
      (encodeBody (generateHuffmanCodes root) s ++ tl) from by simp [List.append_assoc]]
  exact hm

/-- C6 counterexample: a well-formed header for {a:1, b:1, c:1} followed by
the lone bit '1' — a strict prefix of the codes "10" and "11" — decodes to
the empty string with no error, instead of raising a DecodeError. -/
theorem C6_truncated_counterexample :
    decode [104, 101, 116, 10, 97, 32, 49, 10, 98, 32, 49, 10, 99, 32, 49, 10,
      104, 101, 116, 10, 49] = Except.ok [] := by
  simp +decide [decode, charAt, isspaceB, isDigitB, parseHeader_sentinel,
    parseHeader_space_err, parseHeader_len_err, parseHeader_step, strtoull10, wsLen_true,
    wsLen_false, digitsLen_true, digitsLen_false, digitsVal_true, digitsVal_false, mapSet,
    generateHuffmanTree, pqPush, Greater, Node.freq, Node.value, huffLoop_nil, huffLoop_one,
    huffLoop_cons, generateHuffmanCodes, generateHuffmanCodesImpl, reverseCodes, strMapSet,
    strMapFind, findCode_le, findCode_gt, decodeLoop_lt, decodeLoop_ge]

/-- C6 witness: appending the partial code "1" (prefix of code "10" of 'a')
to the encoding of "abc" still decodes to "abc", with no error. -/
theorem C6_truncated_amended_witness :
    2 ≤ (getFreq [97, 98, 99]).length ∧
    generateHuffmanTree (getFreq [97, 98, 99]) = some (Node.internal 3 (Node.leaf 99 1)
      (Node.internal 2 (Node.leaf 97 1) (Node.leaf 98 1))) ∧
    encode [97, 98, 99] = some [104, 101, 116, 10, 97, 32, 49, 10, 98, 32, 49, 10,
      99, 32, 49, 10, 104, 101, 116, 10, 49, 48, 49, 49, 48] ∧
    mapGet? (generateHuffmanCodes (Node.internal 3 (Node.leaf 99 1)
      (Node.internal 2 (Node.leaf 97 1) (Node.leaf 98 1)))) 97 = some [49, 48] ∧
    decode ([104, 101, 116, 10, 97, 32, 49, 10, 98, 32, 49, 10, 99, 32, 49, 10,
      104, 101, 116, 10, 49, 48, 49, 49, 48] ++ [49]) = Except.ok [97, 98, 99] := by
  have ht : generateHuffmanTree (getFreq [97, 98, 99]) = some (Node.internal 3 (Node.leaf 99 1)
      (Node.internal 2 (Node.leaf 97 1) (Node.leaf 98 1))) := by
    simp +decide [getFreq, mapIncr, generateHuffmanTree, pqPush, Greater, Node.freq,
      Node.value, huffLoop_nil, huffLoop_one, huffLoop_cons]
  have he : encode [97, 98, 99] = some [104, 101, 116, 10, 97, 32, 49, 10, 98, 32, 49, 10,
      99, 32, 49, 10, 104, 101, 116, 10, 49, 48, 49, 49, 48] := by
    simp +decide [encode, getFreq, mapIncr, generateHuffmanTree, pqPush, Greater, Node.freq,
      Node.value, huffLoop_nil, huffLoop_one, huffLoop_cons, generateHuffmanCodes,
      generateHuffmanCodesImpl, mapSet, hetLine, freqLines, natDigits_small, natDigits_large,
      encodeBody, mapGet?]
  exact ⟨by decide, ht, he, by decide,
    C6_truncated_amended [97, 98, 99] _ _ 97 [49, 48] [49] (by decide) ht he (by decide)
      (by decide) ⟨[48], rfl⟩ (by decide)⟩

/-- C7: in the queue built by the tree builder's insertions (the sorted-list
model of the priority queue, whose head is extracted first), of two leaves
with equal frequency the one with the numerically smaller symbol value
occupies the earlier position, i.e. is extracted first. -/
theorem C7_tie_break (ns : List Node) (i j : Nat) (v1 v2 : Int) (f : Nat)
    (hi : (ns.foldl pqPush [])[i]? = some (Node.leaf v1 f))
    (hj : (ns.foldl pqPush [])[j]? = some (Node.leaf v2 f))
    (hv : v1 < v2) : i < j :=
  pqOrdered_leaf_index (ns.foldl pqPush []) (pqOrdered_foldl ns [] (by simp [pqOrdered]))
    i j v1 v2 f hi hj hv

/-- C7 witness: pushing the equal-frequency leaves 'b' then 'a' places 'a'
(the smaller value) at the front. -/
theorem C7_tie_break_witness :
    ([Node.leaf 98 5, Node.leaf 97 5].foldl pqPush [])[0]? = some (Node.leaf 97 5) ∧
    ([Node.leaf 98 5, Node.leaf 97 5].foldl pqPush [])[1]? = some (Node.leaf 98 5) ∧
    (0 : Nat) < 1 :=
  ⟨by decide, by decide, C7_tie_break [Node.leaf 98 5, Node.leaf 97 5] 0 1 97 98 5
    (by decide) (by decide) (by decide)⟩

/-- C8: the tree built from a frequency table with N entries has exactly N
leaves (whose (symbol, frequency) pairs are a permutation of the table) and
N − 1 inner nodes, and every inner node's frequency is the sum of its two
children's frequencies. -/
theorem C8_tree_shape (fl : List (Int × Nat)) (root : Node)
    (hroot : generateHuffmanTree fl = some root) :
    countLeaves root = fl.length ∧ countInternal root = fl.length - 1 ∧
    (leaves root).Perm fl ∧ freqOK root = true := by
  have hne : fl ≠ [] := by
    intro h
    rw [h, generateHuffmanTree_nil] at hroot
    exact Option.noConfusion hroot
  obtain ⟨r, h1, h2, h3, h4, h5⟩ := generateHuffmanTree_spec fl hne
  rw [hroot] at h1
  obtain rfl : root = r := by simpa using h1
  exact ⟨h3, h4, h2, h5⟩

/-- C8 witness: the tree shape invariants at the concrete table
{a:1, b:2}. -/
theorem C8_tree_shape_witness :
    generateHuffmanTree [(97, 1), (98, 2)] =
      some (Node.internal 3 (Node.leaf 97 1) (Node.leaf 98 2)) ∧
    (countLeaves (Node.internal 3 (Node.leaf 97 1) (Node.leaf 98 2)) =
        [((97 : Int), (1 : Nat)), (98, 2)].length ∧
      countInternal (Node.internal 3 (Node.leaf 97 1) (Node.leaf 98 2)) =
        [((97 : Int), (1 : Nat)), (98, 2)].length - 1 ∧
      (leaves (Node.internal 3 (Node.leaf 97 1) (Node.leaf 98 2))).Perm
        [((97 : Int), (1 : Nat)), (98, 2)] ∧
      freqOK (Node.internal 3 (Node.leaf 97 1) (Node.leaf 98 2)) = true) := by
  have ht : generateHuffmanTree [(97, 1), (98, 2)] =
      some (Node.internal 3 (Node.leaf 97 1) (Node.leaf 98 2)) := by
    simp +decide [generateHuffmanTree, pqPush, Greater, Node.freq, Node.value,
      huffLoop_nil, huffLoop_one, huffLoop_cons]
  exact ⟨ht, C8_tree_shape [(97, 1), (98, 2)] _ ht⟩

/-- C9 (amended): every symbol of the frequency table receives exactly one
code in the generated table; the code is a string over {'0', '1'} that is
the symbol's root-to-leaf path ('0' = left, '1' = right); and the code is
non-empty whenever the table has at least two entries.  (The original
claim's unconditional non-emptiness fails for a single-entry table, whose
lone symbol receives the empty code; see the counterexample.) -/
theorem C9_codes_amended (fl : List (Int × Nat)) (root : Node) (k : Int)
    (hroot : generateHuffmanTree fl = some root) (hk : k ∈ fl.map Prod.fst) :
    ∃ c, mapGet? (generateHuffmanCodes root) k = some c ∧
      (∀ b ∈ c, b = 48 ∨ b = 49) ∧ followPath root c = some k ∧
      (2 ≤ fl.length → c ≠ []) := by
  have hne : fl ≠ [] := by
    intro h
    rw [h] at hk
    simp at hk
  obtain ⟨r, h1, h2, _, _, _⟩ := generateHuffmanTree_spec fl hne
  rw [hroot] at h1
  obtain rfl : root = r := by simpa using h1
  have hkl : k ∈ (leaves root).map Prod.fst := ((h2.map Prod.fst).mem_iff).mpr hk
  obtain ⟨c, hc⟩ := codes_lookup_of_leaf root k hkl
  refine ⟨c, hc, ?_, codes_followPath root k c hc, ?_⟩
  · exact followPath_bits root c k (codes_followPath root k c hc)
  · intro hfl2
    obtain ⟨fr, lr, rr, hri⟩ := root_internal_of_two fl root hroot hfl2
    rw [hri] at hc
    exact codes_nonempty_of_internal fr lr rr k c hc

/-- C9 counterexample: for the single-entry table {a:1} the tree is the bare
leaf and the symbol 'a' receives the EMPTY code, contradicting the claimed
unconditional non-emptiness. -/
theorem C9_codes_counterexample :
    generateHuffmanTree [(97, 1)] = some (Node.leaf 97 1) ∧
    mapGet? (generateHuffmanCodes (Node.leaf 97 1)) 97 = some [] := by
  refine ⟨?_, by decide⟩
  simp +decide [generateHuffmanTree, pqPush, huffLoop_one]

/-- C9 witness: the amended code-table guarantees at the concrete table
{a:1, b:2} and symbol 'a'. -/
theorem C9_codes_amended_witness :
    generateHuffmanTree [(97, 1), (98, 2)] =
      some (Node.internal 3 (Node.leaf 97 1) (Node.leaf 98 2)) ∧
    97 ∈ ([((97 : Int), (1 : Nat)), (98, 2)]).map Prod.fst ∧
    (∃ c, mapGet? (generateHuffmanCodes (Node.internal 3 (Node.leaf 97 1) (Node.leaf 98 2)))
        97 = some c ∧
      (∀ b ∈ c, b = 48 ∨ b = 49) ∧
      followPath (Node.internal 3 (Node.leaf 97 1) (Node.leaf 98 2)) c = some 97 ∧
      (2 ≤ ([((97 : Int), (1 : Nat)), (98, 2)]).length → c ≠ [])) := by
  have ht : generateHuffmanTree [(97, 1), (98, 2)] =
      some (Node.internal 3 (Node.leaf 97 1) (Node.leaf 98 2)) := by
    simp +decide [generateHuffmanTree, pqPush, Greater, Node.freq, Node.value,
      huffLoop_nil, huffLoop_one, huffLoop_cons]
  exact ⟨ht, by decide, C9_codes_amended [(97, 1), (98, 2)] _ 97 ht (by decide)⟩

/-- C10: on the empty input the frequency table is empty and the tree
builder calls top() on an empty priority queue — an out-of-domain access
modelled as `none` — so encode is undefined on the empty string: it neither
returns empty output nor raises a dedicated error. -/
theorem C10_empty_input : encode [] = none ∧ generateHuffmanTree (getFreq []) = none := by
  have h0 : getFreq ([] : List Int) = [] := rfl
  constructor
  · rw [encode, h0, generateHuffmanTree_nil]
  · rw [h0, generateHuffmanTree_nil]

end Huffman
